/-
Verification of the Layout Simulation & Enforcement Core (LSEC) of the
templar resume-tailoring service.

The Rust sources embedded here (shallowly) are:
  apps/api/src/layout/font_metrics.rs  (font families, width tables,
    string measurement, greedy wrap line estimate)
  apps/api/src/layout/contract.rs      (greedy wrap with per-line fills,
    line-coverage verdicts, promotion scoring)
  apps/api/src/layout/page_fill.rs     (page fill analysis, fill actions)
  apps/api/src/layout/simulator.rs     (bounded simulation loop)

Modelling conventions:
  * Rust `f32` arithmetic is modelled with exact rationals (ℚ).  All
    constants appearing in the code (width-table entries, thresholds
    0.80 / 0.70 / 1.05 / 0.08, page widths) are short decimal fractions,
    and the comparisons the code makes are far from the f32 rounding
    error of these quantities, so the exact-rational model is faithful.
  * Rust machine integers are modelled as ℕ with explicit reductions:
    the `as u8` cast in `simulate_lines` is `% 256`, the u8
    `saturating_add` in `estimated_lines` is `min _ 255`, and the u16
    sum in `analyze_page_fill` is `% 65536`.
  * Rust `&str` is modelled as `String` / `List Char`.  `to_lowercase`
    is modelled as ASCII lowercasing (the code's quantified-outcome and
    keyword predicates only inspect ASCII characters).
  * `split_whitespace` splits on runs of Unicode white space; the
    codepoints of the Unicode `White_Space` property are reproduced.
  * The async structure of the simulator is modelled by explicit state
    passing; the two external effects (blocking-pool dispatch and LLM
    gateway calls) become oracles in a `SimEnv` record, where `none`
    from the LLM oracle stands for an error or unparseable response.
-/
import Mathlib

set_option maxRecDepth 10000

/- The Batteries rational-number operations are `@[irreducible]`, which
blocks the evaluation done by `decide` on concrete inputs; re-mark them
semireducible so the witnesses and counterexamples below evaluate. -/
unseal Rat.add Rat.mul Rat.inv Rat.sub Rat.ofScientific

namespace Templar

/-! ### Text model: whitespace splitting and ASCII lowercasing -/

/-- Unicode `White_Space` codepoints, as used by Rust's
`str::split_whitespace` (via `char::is_whitespace`). -/
def isRustWhitespace (c : Char) : Bool :=
  c.toNat = 0x09 || c.toNat = 0x0A || c.toNat = 0x0B || c.toNat = 0x0C ||
  c.toNat = 0x0D || c.toNat = 0x20 || c.toNat = 0x85 || c.toNat = 0xA0 ||
  c.toNat = 0x1680 || (0x2000 ≤ c.toNat && c.toNat ≤ 0x200A) ||
  c.toNat = 0x2028 || c.toNat = 0x2029 || c.toNat = 0x202F ||
  c.toNat = 0x205F || c.toNat = 0x3000

/-- Helper for `splitWhitespace`: `acc` collects the current word in
reverse order. -/
def splitWhitespaceAux : List Char → List Char → List (List Char)
  | [], acc => if acc.isEmpty then [] else [acc.reverse]
  | c :: cs, acc =>
    if isRustWhitespace c then
      if acc.isEmpty then splitWhitespaceAux cs []
      else acc.reverse :: splitWhitespaceAux cs []
    else splitWhitespaceAux cs (c :: acc)

/-- Rust `str::split_whitespace().collect()`: the maximal non-whitespace
runs of the text, in order, with empty runs discarded. -/
def splitWhitespace (s : List Char) : List (List Char) :=
  splitWhitespaceAux s []

/-- ASCII lowercasing of one character.  (Rust `to_lowercase` also maps
some non-ASCII codepoints; the predicates modelled here only inspect
ASCII characters of the result.) -/
def toLowerChar (c : Char) : Char :=
  if 'A' ≤ c ∧ c ≤ 'Z' then Char.ofNat (c.toNat + 32) else c

/-- Lowercase a character list. -/
def lowerList (s : List Char) : List Char := s.map toLowerChar

/-- Lowercase a string (Rust `String::to_lowercase`, ASCII fragment). -/
def lowerString (s : String) : String := String.mk (lowerList s.toList)

/-- Rust `str::contains(&str)`: substring search. -/
def strContains : List Char → List Char → Bool
  | [], needle => needle.isEmpty
  | hay@(_ :: t), needle => needle.isPrefixOf hay || strContains t needle

/-! ### Font metric store (`font_metrics.rs`) -/

/-- The five supported resume font families. -/
inductive FontFamily where
  | inter
  | ebGaramond
  | lato
  | oswald
  | computerModern
deriving DecidableEq, Repr

/-- Static character-width table for a font family.  `widths i` is the
em-unit width of ASCII character `i + 32` for `i < 95` (the source
stores `[f32; 95]`; indices ≥ 95 are never consulted). -/
structure FontMetricTable where
  font : FontFamily
  widths : ℕ → ℚ
  /-- Fallback width for non-ASCII characters. -/
  average_char_width : ℚ
  space_width : ℚ

/-- Width of a single character under a metric table
(the body of the `map` in `measure_str`). -/
def charWidth (t : FontMetricTable) (c : Char) : ℚ :=
  if 32 ≤ c.toNat ∧ c.toNat ≤ 126 then t.widths (c.toNat - 32)
  else t.average_char_width

/-- `FontMetricTable::measure_str`: sum of per-character widths. -/
def measure_str (t : FontMetricTable) (s : List Char) : ℚ :=
  (s.map (charWidth t)).sum

/-- Layout parameters for a single resume page (`PageConfig`). -/
structure PageConfig where
  font : FontFamily
  font_size_pt : ℕ
  text_width_em : ℚ
  margin_left_in : ℚ
  margin_right_in : ℚ
  usable_height_lines : ℕ
  microtype_margin : ℚ
deriving DecidableEq

/-- `default_page_config`: US letter, 11 pt, 1 in margins. -/
def default_page_config (font : FontFamily) : PageConfig :=
  { font := font
    font_size_pt := 11
    text_width_em := 42.7
    margin_left_in := 1.0
    margin_right_in := 1.0
    usable_height_lines := 45
    microtype_margin := 0.03 }

def interWidths : List ℚ := [
    0.25, 0.30, 0.38, 0.56, 0.56, 0.89, 0.67, 0.22, 0.33, 0.33, 0.39, 0.59, 0.28, 0.33, 0.28, 0.31,
    0.56, 0.56, 0.56, 0.56, 0.56, 0.56, 0.56, 0.56, 0.56, 0.56, 0.28, 0.28, 0.59, 0.59, 0.59, 0.50,
    1.02, 0.67, 0.61, 0.61, 0.67, 0.56, 0.50, 0.67, 0.67, 0.25, 0.39, 0.61, 0.53, 0.78, 0.67, 0.72,
    0.56, 0.72, 0.61, 0.50, 0.56, 0.67, 0.67, 0.89, 0.61, 0.61, 0.56, 0.28, 0.31, 0.28, 0.47, 0.56,
    0.34, 0.56, 0.56, 0.50, 0.56, 0.56, 0.31, 0.56, 0.56, 0.22, 0.22, 0.53, 0.22, 0.83, 0.56, 0.56,
    0.56, 0.56, 0.33, 0.44, 0.39, 0.56, 0.50, 0.72, 0.50, 0.50, 0.44, 0.33, 0.26, 0.33, 0.59]

/-- Inter — humanist sans-serif (Hacker template). -/
def INTER_TABLE : FontMetricTable :=
  { font := .inter
    widths := fun i => interWidths.getD i 0
    average_char_width := 0.52
    space_width := 0.25 }

def ebGaramondWidths : List ℚ := [
    0.21, 0.26, 0.32, 0.48, 0.48, 0.76, 0.57, 0.19, 0.28, 0.28, 0.33, 0.50, 0.24, 0.28, 0.24, 0.26,
    0.48, 0.48, 0.48, 0.48, 0.48, 0.48, 0.48, 0.48, 0.48, 0.48, 0.24, 0.24, 0.50, 0.50, 0.50, 0.43,
    0.87, 0.57, 0.52, 0.52, 0.57, 0.48, 0.43, 0.57, 0.57, 0.21, 0.33, 0.52, 0.45, 0.66, 0.57, 0.61,
    0.48, 0.61, 0.52, 0.43, 0.48, 0.57, 0.57, 0.76, 0.52, 0.52, 0.48, 0.24, 0.26, 0.24, 0.40, 0.48,
    0.29, 0.48, 0.48, 0.43, 0.48, 0.48, 0.26, 0.48, 0.48, 0.19, 0.19, 0.45, 0.19, 0.71, 0.48, 0.48,
    0.48, 0.48, 0.28, 0.37, 0.33, 0.48, 0.43, 0.61, 0.43, 0.43, 0.37, 0.28, 0.22, 0.28, 0.50]

/-- EB Garamond — old-style serif (Researcher template). -/
def EB_GARAMOND_TABLE : FontMetricTable :=
  { font := .ebGaramond
    widths := fun i => ebGaramondWidths.getD i 0
    average_char_width := 0.44
    space_width := 0.21 }

def latoWidths : List ℚ := [
    0.26, 0.32, 0.40, 0.59, 0.59, 0.94, 0.70, 0.23, 0.35, 0.35, 0.41, 0.62, 0.29, 0.35, 0.29, 0.33,
    0.59, 0.59, 0.59, 0.59, 0.59, 0.59, 0.59, 0.59, 0.59, 0.59, 0.29, 0.29, 0.62, 0.62, 0.62, 0.53,
    1.07, 0.70, 0.64, 0.64, 0.70, 0.59, 0.53, 0.70, 0.70, 0.26, 0.41, 0.64, 0.56, 0.82, 0.70, 0.76,
    0.59, 0.76, 0.64, 0.53, 0.59, 0.70, 0.70, 0.94, 0.64, 0.64, 0.59, 0.29, 0.33, 0.29, 0.49, 0.59,
    0.36, 0.59, 0.59, 0.53, 0.59, 0.59, 0.33, 0.59, 0.59, 0.23, 0.23, 0.56, 0.23, 0.87, 0.59, 0.59,
    0.59, 0.59, 0.35, 0.46, 0.41, 0.59, 0.53, 0.76, 0.53, 0.53, 0.46, 0.35, 0.27, 0.35, 0.62]

/-- Lato — geometric humanist sans-serif (Operator template). -/
def LATO_TABLE : FontMetricTable :=
  { font := .lato
    widths := fun i => latoWidths.getD i 0
    average_char_width := 0.55
    space_width := 0.26 }

def oswaldWidths : List ℚ := [
    0.17, 0.20, 0.26, 0.38, 0.38, 0.61, 0.46, 0.15, 0.23, 0.23, 0.27, 0.40, 0.19, 0.23, 0.19, 0.21,
    0.38, 0.38, 0.38, 0.38, 0.38, 0.38, 0.38, 0.38, 0.38, 0.38, 0.19, 0.19, 0.40, 0.40, 0.40, 0.34,
    0.69, 0.46, 0.41, 0.41, 0.46, 0.38, 0.34, 0.46, 0.46, 0.17, 0.27, 0.41, 0.36, 0.53, 0.46, 0.49,
    0.38, 0.49, 0.41, 0.34, 0.38, 0.46, 0.46, 0.61, 0.41, 0.41, 0.38, 0.19, 0.21, 0.19, 0.32, 0.38,
    0.23, 0.38, 0.38, 0.34, 0.38, 0.38, 0.21, 0.38, 0.38, 0.15, 0.15, 0.36, 0.15, 0.56, 0.38, 0.38,
    0.38, 0.38, 0.23, 0.30, 0.27, 0.38, 0.34, 0.49, 0.34, 0.34, 0.30, 0.23, 0.18, 0.23, 0.40]

/-- Oswald — condensed display sans-serif (Founder template). -/
def OSWALD_TABLE : FontMetricTable :=
  { font := .oswald
    widths := fun i => oswaldWidths.getD i 0
    average_char_width := 0.35
    space_width := 0.17 }

def computerModernWidths : List ℚ := [
    0.23, 0.27, 0.34, 0.50, 0.50, 0.80, 0.60, 0.20, 0.30, 0.30, 0.35, 0.53, 0.25, 0.30, 0.25, 0.28,
    0.50, 0.50, 0.50, 0.50, 0.50, 0.50, 0.50, 0.50, 0.50, 0.50, 0.25, 0.25, 0.53, 0.53, 0.53, 0.45,
    0.92, 0.60, 0.55, 0.55, 0.60, 0.50, 0.45, 0.60, 0.60, 0.23, 0.35, 0.55, 0.48, 0.70, 0.60, 0.65,
    0.50, 0.65, 0.55, 0.45, 0.50, 0.60, 0.60, 0.80, 0.55, 0.55, 0.50, 0.25, 0.28, 0.25, 0.42, 0.50,
    0.31, 0.50, 0.50, 0.45, 0.50, 0.50, 0.28, 0.50, 0.50, 0.20, 0.20, 0.48, 0.20, 0.75, 0.50, 0.50,
    0.50, 0.50, 0.30, 0.40, 0.35, 0.50, 0.45, 0.65, 0.45, 0.45, 0.40, 0.30, 0.23, 0.30, 0.53]

/-- Computer Modern — traditional TeX font (Classic template). -/
def COMPUTER_MODERN_TABLE : FontMetricTable :=
  { font := .computerModern
    widths := fun i => computerModernWidths.getD i 0
    average_char_width := 0.47
    space_width := 0.23 }

/-- `get_metrics`: the static metric table for a font family. -/
def get_metrics : FontFamily → FontMetricTable
  | .inter => INTER_TABLE
  | .ebGaramond => EB_GARAMOND_TABLE
  | .lato => LATO_TABLE
  | .oswald => OSWALD_TABLE
  | .computerModern => COMPUTER_MODERN_TABLE

/-- Loop of `FontMetricTable::estimated_lines`: state is
`(line_count, current_width, first)`.  `min _ 255` is the u8
`saturating_add(1)` of the source. -/
def estLoop (t : FontMetricTable) (cfg : PageConfig) :
    List (List Char) → ℕ → ℚ → Bool → ℕ × ℚ × Bool
  | [], cnt, cur, first => (cnt, cur, first)
  | w :: ws, cnt, cur, first =>
    let wordW := measure_str t w
    let spaceW := if first then 0 else t.space_width
    if first = false ∧ cfg.text_width_em < cur + spaceW + wordW then
      estLoop t cfg ws (min (cnt + 1) 255) wordW first
    else
      estLoop t cfg ws cnt (cur + spaceW + wordW) false

/-- `FontMetricTable::estimated_lines`: greedy-wrap line count only,
with u8 saturating addition. -/
def estimated_lines (t : FontMetricTable) (s : String) (cfg : PageConfig) : ℕ :=
  let words := splitWhitespace s.toList
  if words = [] then 0
  else (estLoop t cfg words 1 0 true).1

/-! ### Line coverage contract (`contract.rs`) -/

def MIN_1LINE_FILL : ℚ := 0.80
def MIN_2LINE_L2_FILL : ℚ := 0.70

/-- Loop of `simulate_lines`: state is
`(line_fills, current_width, first_on_line)`.  On a line break the fill
of the closed line is pushed and `first_on_line` stays `false` (the next
word on the new line gets a leading space), exactly as in the source. -/
def wrapLoop (t : FontMetricTable) (cfg : PageConfig) :
    List (List Char) → List ℚ → ℚ → Bool → List ℚ × ℚ × Bool
  | [], fills, cur, first => (fills, cur, first)
  | w :: ws, fills, cur, first =>
    let wordW := measure_str t w
    let spaceW := if first then 0 else t.space_width
    if first = false ∧ cfg.text_width_em < cur + spaceW + wordW then
      wrapLoop t cfg ws (fills ++ [cur / cfg.text_width_em]) wordW first
    else
      wrapLoop t cfg ws fills (cur + spaceW + wordW) false

/-- `simulate_lines`: greedy word-wrap simulation, returning
`(line_count, per_line_fill_fractions)`.  The count is the vector
length cast to u8 (`% 256`).  Empty input yields `(0, [])`. -/
def simulate_lines (text : String) (t : FontMetricTable) (cfg : PageConfig) :
    ℕ × List ℚ :=
  let words := splitWhitespace text.toList
  if words = [] then (0, [])
  else
    let st := wrapLoop t cfg words [] 0 true
    let fills := st.1 ++ [st.2.1 / cfg.text_width_em]
    (fills.length % 256, fills)

/-- The verdict for a single bullet's line coverage check. -/
inductive LineCoverageVerdict where
  | satisfies
  | tooShort (fill required : ℚ)
  | tooLong (actual_lines : ℕ)
  | secondLineTooShort (fill : ℚ)
deriving DecidableEq, Repr

/-- Full coverage result for a single bullet (`LineCoverageResult`). -/
structure LineCoverageResult where
  bullet_index : ℕ
  text : String
  simulated_line_count : ℕ
  line1_fill : ℚ
  line2_fill : Option ℚ
  verdict : LineCoverageVerdict
deriving DecidableEq, Repr

/-- `check_contract`: classify one bullet text against the contract. -/
def check_contract (bullet_index : ℕ) (text : String)
    (t : FontMetricTable) (cfg : PageConfig) : LineCoverageResult :=
  let lc := simulate_lines text t cfg
  let line1_fill := lc.2.headD 0
  let line2_fill := lc.2.get? 1
  let verdict :=
    if lc.1 = 0 ∨ lc.1 = 1 then
      if line1_fill < MIN_1LINE_FILL then .tooShort line1_fill MIN_1LINE_FILL
      else .satisfies
    else if lc.1 = 2 then
      match line2_fill with
      | some l2 =>
        if l2 < MIN_2LINE_L2_FILL then .secondLineTooShort l2 else .satisfies
      | none => .satisfies
    else .tooLong lc.1
  { bullet_index := bullet_index
    text := text
    simulated_line_count := lc.1
    line1_fill := line1_fill
    line2_fill := line2_fill
    verdict := verdict }

/-! ### Upstream types (`generator.rs`, `jd_parser.rs`)

Only the fields LSEC reads are carried; `ParsedJD`'s
`hard_requirements`, `soft_signals`, `role_signals` and `detected_tone`
are not consulted by any layout function and are omitted.  `Uuid` is
modelled as ℕ. -/

/-- A draft resume bullet from the generator (`DraftBullet`). -/
structure DraftBullet where
  text : String
  source_entry_id : ℕ
  sectionTag : String
  line_estimate : ℕ
  jd_keywords_used : List String
deriving DecidableEq, Repr

/-- One entry of the JD keyword inventory (`KeywordEntry`). -/
structure KeywordEntry where
  keyword : String
  frequency : ℕ
  position_weight : ℚ
  weighted_score : ℚ
deriving DecidableEq, Repr

/-- Structured JD-parsing output (`ParsedJD`), keyword inventory only. -/
structure ParsedJD where
  keyword_inventory : List KeywordEntry
deriving DecidableEq, Repr

/-! ### Promotion scoring (`contract.rs`) -/

/-- Promotion eligibility score (`PromotionScore`). -/
structure PromotionScore where
  quantified_outcome : ℚ
  technical_depth : ℚ
  jd_relevance : ℚ
  eligible_for_two_lines : Bool
deriving DecidableEq, Repr

/-- `c` is one of the unit characters `%`, `x`, `k`, `m` consulted after
a digit by `has_quantified_outcome`. -/
def isUnitChar (c : Char) : Bool :=
  c = '%' || c = 'x' || c = 'k' || c = 'm'

/-- Scan of `has_quantified_outcome` over the lowercased text:
`prev` is the previous character (the source inspects `bytes[i - 1]`).
Returns true on a digit followed by a unit character or preceded by a
dollar sign. -/
def quantScan : Option Char → List Char → Bool
  | _, [] => false
  | prev, c :: rest =>
    if c.isDigit && (((rest.head?.map isUnitChar).getD false) || prev == some '$') then
      true
    else quantScan (some c) rest

/-- `has_quantified_outcome`: digit+unit or `$`+digit pattern on the
lowercased text. -/
def has_quantified_outcome (text : String) : Bool :=
  quantScan none (lowerList text.toList)

/-- `compute_technical_depth`: fraction of high-position-weight JD
keywords appearing (case-insensitively) in the text; `0.5` when there
are none. -/
def compute_technical_depth (text : String) (jd : ParsedJD) : ℚ :=
  let text_lower := lowerList text.toList
  let high_weight_keywords :=
    (jd.keyword_inventory.filter fun k => decide (0.6 ≤ k.position_weight)).map
      (fun k => k.keyword)
  if high_weight_keywords = [] then 0.5
  else
    let matched :=
      (high_weight_keywords.filter fun kw =>
        strContains text_lower (lowerList kw.toList)).length
    min ((matched : ℚ) / (high_weight_keywords.length : ℚ)) 1

/-- `compute_jd_relevance`: fraction of the bullet's used keywords whose
lowercase form is a high-position-weight JD keyword; `0` when the used
list is empty. -/
def compute_jd_relevance (used : List String) (jd : ParsedJD) : ℚ :=
  if used = [] then 0
  else
    let high_weight_set :=
      (jd.keyword_inventory.filter fun k => decide (0.6 ≤ k.position_weight)).map
        (fun k => lowerString k.keyword)
    let matched := (used.filter fun kw => high_weight_set.contains (lowerString kw)).length
    min ((matched : ℚ) / (used.length : ℚ)) 1

/-- `score_promotion`: the three sub-scores and the eligibility
conjunction. -/
def score_promotion (bullet : DraftBullet) (jd : ParsedJD) : PromotionScore :=
  let quantified_outcome : ℚ := if has_quantified_outcome bullet.text then 1.0 else 0.0
  let technical_depth := compute_technical_depth bullet.text jd
  let jd_relevance := compute_jd_relevance bullet.jd_keywords_used jd
  let eligible_for_two_lines :=
    decide (0.7 ≤ quantified_outcome) && decide (0.7 ≤ technical_depth) &&
      decide (0.7 ≤ jd_relevance)
  { quantified_outcome := quantified_outcome
    technical_depth := technical_depth
    jd_relevance := jd_relevance
    eligible_for_two_lines := eligible_for_two_lines }

/-! ### Simulation loop (`simulator.rs`) -/

/-- A bullet after layout simulation (`SimulatedBullet`). -/
structure SimulatedBullet where
  text : String
  source_entry_id : ℕ
  sectionTag : String
  verified_line_count : ℕ
  jd_keywords_used : List String
  was_adjusted : Bool
  flagged_for_review : Bool
deriving DecidableEq, Repr

/-- Summary of a complete simulation run (`SimulationResult`). -/
structure SimulationResult where
  bullets : List SimulatedBullet
  total_passes : ℕ
  violations_remaining : ℕ
  flagged_count : ℕ
  llm_calls_made : ℕ
deriving DecidableEq, Repr

/-- The only terminal error of the loop: a `spawn_blocking` dispatch
failure (`AppError::Internal` in the source; the message is elided). -/
inductive SimError where
  | dispatch
deriving DecidableEq, Repr

/-- Decidable equality for `Except` results (core provides none);
needed to evaluate the loop on concrete oracles. -/
instance exceptDecEq {ε α : Type} [DecidableEq ε] [DecidableEq α] :
    DecidableEq (Except ε α) := fun x y =>
  match x, y with
  | .ok a, .ok b =>
    if h : a = b then isTrue (by rw [h])
    else isFalse (fun hc => h (by injection hc))
  | .error a, .error b =>
    if h : a = b then isTrue (by rw [h])
    else isFalse (fun hc => h (by injection hc))
  | .ok _, .error _ => isFalse (fun hc => Except.noConfusion hc)
  | .error _, .ok _ => isFalse (fun hc => Except.noConfusion hc)

/-- Oracles for the two external effects of the simulation loop:
`dispatchOk n` tells whether the `n`-th `spawn_blocking` dispatch
succeeds, and `llmResp n` is the text of the `n`-th LLM gateway call
(`none` models an error or a response without a parseable `text`
field). -/
structure SimEnv where
  dispatchOk : ℕ → Bool
  llmResp : ℕ → Option String

def MAX_PASSES : ℕ := 3

/-- `init_simulated`: project draft bullets into simulated bullets. -/
def init_simulated (bullets : List DraftBullet) : List SimulatedBullet :=
  bullets.map fun b =>
    { text := b.text
      source_entry_id := b.source_entry_id
      sectionTag := b.sectionTag
      verified_line_count := b.line_estimate
      jd_keywords_used := b.jd_keywords_used
      was_adjusted := false
      flagged_for_review := false }

/-- Helpers of `run_simulation_loop`: one index-based enumeration
(Rust `iter().enumerate()`, generalised over the starting index). -/
def enumIdx : ℕ → List α → List (ℕ × α)
  | _, [] => []
  | n, a :: l => (n, a) :: enumIdx (n + 1) l

/-- In-place update of the element at one index (Rust `list[idx] = ...`;
out-of-range indices leave the list unchanged). -/
def updateAt : ℕ → (α → α) → List α → List α
  | _, _, [] => []
  | 0, f, a :: l => f a :: l
  | n + 1, f, a :: l => a :: updateAt n f l

/-- `run_single_pass_sync`: evaluate the contract on every bullet and
keep the `(index, result)` pairs whose verdict is not `Satisfies`. -/
def run_single_pass_sync (bullets : List SimulatedBullet)
    (t : FontMetricTable) (cfg : PageConfig) : List (ℕ × LineCoverageResult) :=
  (enumIdx 0 bullets).filterMap fun p =>
    let result := check_contract p.1 p.2.text t cfg
    if result.verdict = .satisfies then none else some (p.1, result)

/-- The per-bullet tail of the remediation step: take the gateway
response if any (`unwrap_or_else` keeps the current text on failure),
and record an adjustment only when the text actually changed. -/
def applyAdjust (b : SimulatedBullet) (resp : Option String) : SimulatedBullet :=
  let adjusted_text := resp.getD b.text
  if adjusted_text ≠ b.text then
    { b with text := adjusted_text, was_adjusted := true }
  else b

/-- The remediation phase of one pass: each violating bullet triggers
exactly one LLM call (expand for `TooShort` / `SecondLineTooShort`,
compress for `TooLong`; the prompt contents do not influence the state
and are elided).  The state is `(bullets, llm_calls_made)`; the call
counter indexes the LLM oracle. -/
def remediatePass (env : SimEnv) (viol : List (ℕ × LineCoverageResult))
    (sb : List SimulatedBullet) (calls : ℕ) : List SimulatedBullet × ℕ :=
  viol.foldl
    (fun st v =>
      match v.2.verdict with
      | .satisfies => st
      | _ => (updateAt v.1 (fun b => applyAdjust b (env.llmResp st.2)) st.1, st.2 + 1))
    (sb, calls)

/-- The bounded pass iteration of `run_simulation_loop`.  `fuel` is the
remaining pass budget (starting at `MAX_PASSES`), `d` the index of the
next `spawn_blocking` dispatch.  Returns
`(bullets, total_passes, llm_calls_made, next dispatch index)`. -/
def simPasses (env : SimEnv) (t : FontMetricTable) (cfg : PageConfig) :
    ℕ → List SimulatedBullet → ℕ → ℕ → ℕ →
      Except SimError (List SimulatedBullet × ℕ × ℕ × ℕ)
  | 0, sb, tp, calls, d => .ok (sb, tp, calls, d)
  | fuel + 1, sb, tp, calls, d =>
    if env.dispatchOk d = false then .error .dispatch
    else
      let viol := run_single_pass_sync sb t cfg
      if viol = [] then .ok (sb, tp + 1, calls, d + 1)
      else
        let st := remediatePass env viol sb calls
        simPasses env t cfg fuel st.1 (tp + 1) st.2 (d + 1)

/-- Mark `flagged_for_review` at every index of the final violation
list (the `for (idx, _) in &final_violations` loop of the source). -/
def flagViolations (sb : List SimulatedBullet) (idxs : List ℕ) : List SimulatedBullet :=
  idxs.foldl (fun acc i => updateAt i (fun b => { b with flagged_for_review := true }) acc) sb

/-- `run_simulation_loop`: up to `MAX_PASSES` measurement/remediation
passes, then a final measurement pass that flags residual violators,
then one more measurement that sets `verified_line_count` (clamped to
at least 1).  The source computes the final line counts into a vector
from a snapshot and zips it back; as the texts are unchanged in
between, this is the per-bullet map written here.  Each of the three
`spawn_blocking` sites consults the dispatch oracle and is the only
error source. -/
def run_simulation_loop (env : SimEnv) (bullets : List DraftBullet)
    (cfg : PageConfig) : Except SimError SimulationResult :=
  let t := get_metrics cfg.font
  match simPasses env t cfg MAX_PASSES (init_simulated bullets) 0 0 0 with
  | .error e => .error e
  | .ok (sb, total_passes, llm_calls_made, d) =>
    if env.dispatchOk d = false then .error .dispatch
    else
      let final_violations := run_single_pass_sync sb t cfg
      let sb2 := flagViolations sb (final_violations.map Prod.fst)
      if env.dispatchOk (d + 1) = false then .error .dispatch
      else
        let sb3 := sb2.map fun b =>
          { b with verified_line_count := max (simulate_lines b.text t cfg).1 1 }
        .ok { bullets := sb3
              total_passes := total_passes
              violations_remaining := final_violations.length
              flagged_count := final_violations.length
              llm_calls_made := llm_calls_made }

/-! ### Page fill analysis (`page_fill.rs`) -/

/-- Overall page fill verdict (`PageFillVerdict`). -/
inductive PageFillVerdict where
  | acceptable
  | tooMuchWhitespace
  | minorOverflow
  | majorOverflow
deriving DecidableEq, Repr

/-- Full page fill analysis result (`PageFillAnalysis`). -/
structure PageFillAnalysis where
  total_lines_used : ℕ
  total_lines_available : ℕ
  whitespace_fraction : ℚ
  overflow_fraction : ℚ
  verdict : PageFillVerdict
deriving DecidableEq, Repr

/-- Recommended remediation action (`FillAction`). -/
inductive FillAction where
  | promoteBullet (bullet_index : ℕ)
  | compressBullet (bullet_index : ℕ)
  | removeBullet (bullet_index : ℕ)
  | tightenSpacing
  | noAction
deriving DecidableEq, Repr

/-- The u16 sum `Σ verified_line_count` computed by
`analyze_page_fill` (inline in the source). -/
def totalLinesUsed (bullets : List SimulatedBullet) : ℕ :=
  (bullets.map fun b => b.verified_line_count).sum % 65536

/-- `analyze_page_fill`: fill ratio, whitespace and overflow fractions,
and the four-way verdict. -/
def analyze_page_fill (bullets : List SimulatedBullet) (cfg : PageConfig) :
    PageFillAnalysis :=
  let total_lines_used := totalLinesUsed bullets
  let available := cfg.usable_height_lines
  let fill_frac : ℚ := (total_lines_used : ℚ) / (available : ℚ)
  let whitespace_fraction := max (1 - fill_frac) 0
  let overflow_fraction := max (fill_frac - 1) 0
  let verdict :=
    if (1.05 : ℚ) < fill_frac then PageFillVerdict.majorOverflow
    else if (1.00 : ℚ) < fill_frac then PageFillVerdict.minorOverflow
    else if (0.08 : ℚ) < whitespace_fraction then PageFillVerdict.tooMuchWhitespace
    else PageFillVerdict.acceptable
  { total_lines_used := total_lines_used
    total_lines_available := available
    whitespace_fraction := whitespace_fraction
    overflow_fraction := overflow_fraction
    verdict := verdict }

/-- The lowercased JD keyword set used for match scoring (a `HashSet`
in the source; list membership is set membership). -/
def jd_keyword_set (jd : ParsedJD) : List String :=
  jd.keyword_inventory.map fun k => lowerString k.keyword

/-- `keyword_match_score`: how many of the bullet's used keywords occur
(case-insensitively) in the JD keyword set, as an f32-modelling ℚ. -/
def keyword_match_score (used : List String) (jdSet : List String) : ℚ :=
  ((used.filter fun kw => jdSet.contains (lowerString kw)).length : ℚ)

/-- One step of Rust `Iterator::min_by`: keep the accumulator unless a
strictly smaller key appears (so ties keep the earlier element). -/
def minStep (key : α → ℚ) (acc y : α) : α := if key y < key acc then y else acc

/-- One step of Rust `Iterator::max_by`: replace the accumulator unless
its key is strictly greater (so ties take the later element). -/
def maxStep (key : α → ℚ) (acc y : α) : α := if key y < key acc then acc else y

/-- Rust `Iterator::min_by` over a list: `none` on empty input; the
FIRST minimum is returned on ties. -/
def minByFirst (key : α → ℚ) : List α → Option α
  | [] => none
  | x :: xs => some (xs.foldl (minStep key) x)

/-- Rust `Iterator::max_by` over a list: `none` on empty input; the
LAST maximum is returned on ties. -/
def maxByLast (key : α → ℚ) : List α → Option α
  | [] => none
  | x :: xs => some (xs.foldl (maxStep key) x)

/-- `find_lowest_scoring_bullet`: index of the bullet with the fewest
JD keyword matches (first index on ties). -/
def find_lowest_scoring_bullet (bullets : List SimulatedBullet) (jd : ParsedJD) :
    Option ℕ :=
  if bullets = [] then none
  else
    let s := jd_keyword_set jd
    (minByFirst (fun p => keyword_match_score p.2.jd_keywords_used s)
        (enumIdx 0 bullets)).map Prod.fst

/-- `find_best_promotion_candidate`: among unflagged 1-line bullets,
the index with the most JD keyword matches (last index on ties, per
`max_by`). -/
def find_best_promotion_candidate (bullets : List SimulatedBullet) (jd : ParsedJD) :
    Option ℕ :=
  let s := jd_keyword_set jd
  (maxByLast (fun p => keyword_match_score p.2.jd_keywords_used s)
      ((enumIdx 0 bullets).filter fun p =>
        p.2.verified_line_count == 1 && !p.2.flagged_for_review)).map Prod.fst

/-- `recommend_fill_action`: one remediation action per verdict. -/
def recommend_fill_action (analysis : PageFillAnalysis)
    (bullets : List SimulatedBullet) (jd : ParsedJD) : FillAction :=
  match analysis.verdict with
  | .acceptable => .noAction
  | .tooMuchWhitespace =>
    match find_best_promotion_candidate bullets jd with
    | some idx => .promoteBullet idx
    | none => .noAction
  | .minorOverflow =>
    match find_lowest_scoring_bullet bullets jd with
    | some idx => .compressBullet idx
    | none => .tightenSpacing
  | .majorOverflow =>
    match find_lowest_scoring_bullet bullets jd with
    | some idx => .removeBullet idx
    | none => .tightenSpacing

/-! ### Spec-side reference definitions

These definitions follow the wording of the specification (§4.2, §4.4,
§8) rather than the source, for comparison with the embedded code. -/

/-- Spec §4.2 verdict computation, as a function of the line count and
the line-1 / line-2 fills reported by the greedy wrap: count 0 or 1 is
judged on line-1 fill against 0.80 (strict), count 2 on line-2 fill
against 0.70 (strict), count ≥ 3 is always too long. -/
def specContractVerdict (count : ℕ) (l1 : ℚ) (l2 : Option ℚ) : LineCoverageVerdict :=
  if count = 0 ∨ count = 1 then
    if l1 < 0.80 then .tooShort l1 0.80 else .satisfies
  else if count = 2 then
    match l2 with
    | some f => if f < 0.70 then .secondLineTooShort f else .satisfies
    | none => .satisfies
  else .tooLong count

/-- Positional reading of the quantified-outcome scan: some position
holds a digit that is followed by a unit character, or preceded by `$`
(`prev` stands for the character before the scanned list). -/
def QScanSpec (prev : Option Char) (l : List Char) : Prop :=
  ∃ i c, l.get? i = some c ∧ c.isDigit = true ∧
    ((∃ u, l.get? (i + 1) = some u ∧ isUnitChar u = true) ∨
      (if i = 0 then prev = some '$' else l.get? (i - 1) = some '$'))

/-- Spec §4.2 *quantified_outcome* condition: the lowercased text
contains an ASCII digit immediately followed by `%`, `x`, `k` or `m`,
or immediately preceded by `$`. -/
def SpecQuantified (text : String) : Prop :=
  QScanSpec none (lowerList text.toList)

/-- Spec §4.2 *technical_depth*: with H the JD keywords of position
weight ≥ 0.6 — 0.5 if H is empty, else the fraction of H appearing
case-insensitively in the text, clamped to 1. -/
def spec_technical_depth (text : String) (jd : ParsedJD) : ℚ :=
  let H := jd.keyword_inventory.filter fun k => decide (0.6 ≤ k.position_weight)
  if H = [] then 0.5
  else
    min ((H.countP fun k =>
      strContains (lowerList text.toList) (lowerList k.keyword.toList) : ℚ) /
        (H.length : ℚ)) 1

/-- Spec §4.2 *jd_relevance*: 0 if the used-keyword list is empty, else
the fraction of used keywords whose lowercase form is a high-weight JD
keyword, clamped to 1. -/
def spec_jd_relevance (used : List String) (jd : ParsedJD) : ℚ :=
  let H := jd.keyword_inventory.filter fun k => decide (0.6 ≤ k.position_weight)
  if used = [] then 0
  else
    min ((used.countP fun kw =>
      (H.map fun k => lowerString k.keyword).contains (lowerString kw) : ℚ) /
        (used.length : ℚ)) 1

/-- Number of line breaks taken by the greedy wrap over the remaining
words, starting from accumulated width `cur` with the first word of the
line already placed (`first_on_line = false`).  Proof-side recursion
mirroring `wrapLoop` / `estLoop`. -/
def breaksFromW (t : FontMetricTable) (W : ℚ) : List (List Char) → ℚ → ℕ
  | [], _ => 0
  | w :: ws, cur =>
    let wordW := measure_str t w
    if W < cur + t.space_width + wordW then breaksFromW t W ws wordW + 1
    else breaksFromW t W ws (cur + t.space_width + wordW)

/-- A width table with only nonnegative entries — every table of the
data model carries physical em-unit widths. -/
def NonnegTable (t : FontMetricTable) : Prop :=
  (∀ i, 0 ≤ t.widths i) ∧ 0 ≤ t.average_char_width ∧ 0 ≤ t.space_width

/-- Spec invariants (I1), (I2) at simulation exit: every bullet has a
verified line count ≥ 1 (exactly 1 for whitespace-only text), and is
flagged iff its final text fails the contract. -/
def SimExitInvariant (r : SimulationResult) (cfg : PageConfig) : Prop :=
  ∀ b ∈ r.bullets,
    1 ≤ b.verified_line_count ∧
    (splitWhitespace b.text.toList = [] → b.verified_line_count = 1) ∧
    (b.flagged_for_review = true ↔
      (check_contract 0 b.text (get_metrics cfg.font) cfg).verdict ≠ .satisfies)

/-- Spec §4.4: the page fill verdict as a function of the fill ratio
`r = total_lines_used / usable_height_lines`, with strict thresholds at
1.05, 1.00 and 0.08 of whitespace. -/
def FillVerdictSpec (bullets : List SimulatedBullet) (cfg : PageConfig) : Prop :=
  let a := analyze_page_fill bullets cfg
  let r : ℚ := (totalLinesUsed bullets : ℚ) / (cfg.usable_height_lines : ℚ)
  a.whitespace_fraction = max 0 (1 - r) ∧
  a.overflow_fraction = max 0 (r - 1) ∧
  (a.verdict = .majorOverflow ↔ 1.05 < r) ∧
  (a.verdict = .minorOverflow ↔ 1 < r ∧ r ≤ 1.05) ∧
  (a.verdict = .tooMuchWhitespace ↔ r ≤ 1 ∧ 0.08 < 1 - r) ∧
  (a.verdict = .acceptable ↔ r ≤ 1 ∧ 1 - r ≤ 0.08)

/-- The JD-match score of one simulated bullet (spec §4.4 ranking). -/
def bulletScore (jd : ParsedJD) (b : SimulatedBullet) : ℚ :=
  keyword_match_score b.jd_keywords_used (jd_keyword_set jd)

/-- Bullet `b` sits at index `i` and is a promotion candidate:
1 verified line and not flagged for review. -/
def PromoCandidate (bullets : List SimulatedBullet) (i : ℕ) (b : SimulatedBullet) :
    Prop :=
  bullets.get? i = some b ∧ b.verified_line_count = 1 ∧ b.flagged_for_review = false

/-- Spec §4.4 TooMuchWhitespace action, with the tie-break as the code
implements it (`max_by` keeps the LAST maximum): either there is no
promotion candidate and the action is NoAction, or the action promotes
a candidate of maximal score whose index is highest among equals. -/
def WhitespaceActionSpec (bullets : List SimulatedBullet) (jd : ParsedJD)
    (act : FillAction) : Prop :=
  ((∀ i b, ¬ PromoCandidate bullets i b) ∧ act = .noAction) ∨
  (∃ i b, PromoCandidate bullets i b ∧ act = .promoteBullet i ∧
    ∀ j c, PromoCandidate bullets j c →
      bulletScore jd c ≤ bulletScore jd b ∧
        (bulletScore jd c = bulletScore jd b → j ≤ i))

/-- Index `i` holds a lowest-scoring bullet: its JD-match score is
minimal over all bullets and its index is lowest among equals. -/
def LowestScoringAt (bullets : List SimulatedBullet) (jd : ParsedJD) (i : ℕ) :
    Prop :=
  ∃ b, bullets.get? i = some b ∧
    ∀ j c, bullets.get? j = some c →
      bulletScore jd b ≤ bulletScore jd c ∧
        (bulletScore jd c = bulletScore jd b → i ≤ j)

/-! ### Concrete instances for witnesses and counterexamples -/

/-- Test table: every glyph 2 em wide, spaces 1 em. -/
def flatTable : FontMetricTable :=
  { font := .inter
    widths := fun _ => 2
    average_char_width := 2
    space_width := 1 }

/-- A 1 em wide page (every multi-word line breaks under
`flatTable`). -/
def narrowConfig : PageConfig :=
  { font := .inter
    font_size_pt := 11
    text_width_em := 1
    margin_left_in := 1
    margin_right_in := 1
    usable_height_lines := 45
    microtype_margin := 0.03 }

/-- The same page, 1000 em wide. -/
def wideConfig : PageConfig := { narrowConfig with text_width_em := 1000 }

/-- The same page, 10 em wide. -/
def tenConfig : PageConfig := { narrowConfig with text_width_em := 10 }

/-- `n` copies of the word `a`, space separated. -/
def manyWords : ℕ → List Char
  | 0 => []
  | n + 1 => 'a' :: ' ' :: manyWords n

/-- 256 copies of the word `a`: wraps to 256 lines under `flatTable` /
`narrowConfig`, so the u8 line count of `simulate_lines` wraps to 0. -/
def manyWordText : String := String.mk (manyWords 256)

/-- A JD whose only keyword is high-weight `Rust`. -/
def jdRust : ParsedJD :=
  { keyword_inventory :=
      [{ keyword := "Rust", frequency := 5, position_weight := 0.8,
         weighted_score := 4.0 }] }

/-- A clean 1-line bullet using the keyword `Rust`. -/
def promoBullet : SimulatedBullet :=
  { text := "Architected systems"
    source_entry_id := 0
    sectionTag := "experience"
    verified_line_count := 1
    jd_keywords_used := ["Rust"]
    was_adjusted := false
    flagged_for_review := false }

/-- A page-fill analysis with the TooMuchWhitespace verdict. -/
def whitespaceAnalysis : PageFillAnalysis :=
  { total_lines_used := 30
    total_lines_available := 45
    whitespace_fraction := 1/3
    overflow_fraction := 0
    verdict := .tooMuchWhitespace }

/-- Spec scenario 5: 50 one-line bullets on a 45-line page, the bullet
at index 1 using no keyword. -/
def overflowBullets : List SimulatedBullet :=
  promoBullet :: { promoBullet with jd_keywords_used := [] } ::
    List.replicate 48 promoBullet

/-- Spec scenario 6: 43 one-line bullets on a 45-line page. -/
def fortyThreeBullets : List SimulatedBullet := List.replicate 43 promoBullet

/-- The default Inter page. -/
def interConfig : PageConfig := default_page_config .inter

/-- Spec scenario 3 bullet: `Built it.` is far below the 80 % fill. -/
def draftShort : DraftBullet :=
  { text := "Built it."
    source_entry_id := 7
    sectionTag := "experience"
    line_estimate := 1
    jd_keywords_used := ["Rust"] }

/-- Gateway oracle that always answers with the unchanged text
`Built it.` (spec scenario 3: a non-improving LLM); dispatch always
succeeds. -/
def envEcho : SimEnv :=
  { dispatchOk := fun _ => true, llmResp := fun _ => some "Built it." }

/-- Gateway oracle whose LLM calls always fail; dispatch always
succeeds. -/
def envFail : SimEnv :=
  { dispatchOk := fun _ => true, llmResp := fun _ => none }

/-- The simulation result of running `draftShort` under `envFail`:
three passes, three failed LLM calls, the bullet flagged and clamped to
one line. -/
def resFail : SimulationResult :=
  { bullets :=
      [{ text := "Built it."
         source_entry_id := 7
         sectionTag := "experience"
         verified_line_count := 1
         jd_keywords_used := ["Rust"]
         was_adjusted := false
         flagged_for_review := true }]
    total_passes := 3
    violations_remaining := 1
    flagged_count := 1
    llm_calls_made := 3 }

/-! ### Greedy-wrap lemmas -/

/-- Entering the wrap loop: the first word is always placed on the
first line without a break. -/
lemma wrapLoop_cons_first (t : FontMetricTable) (cfg : PageConfig)
    (w : List Char) (ws : List (List Char)) :
    wrapLoop t cfg (w :: ws) [] 0 true = wrapLoop t cfg ws [] (measure_str t w) false := by
  simp [wrapLoop]

/-- Entering the estimate loop: the first word never breaks. -/
lemma estLoop_cons_first (t : FontMetricTable) (cfg : PageConfig)
    (w : List Char) (ws : List (List Char)) (cnt : ℕ) :
    estLoop t cfg (w :: ws) cnt 0 true = estLoop t cfg ws cnt (measure_str t w) false := by
  simp [estLoop]

/-- One steady-phase step of the wrap loop, with the Bool flag and the
space-width conditional reduced. -/
lemma wrapLoop_cons_false (t : FontMetricTable) (cfg : PageConfig)
    (w : List Char) (ws : List (List Char)) (fills : List ℚ) (cur : ℚ) :
    wrapLoop t cfg (w :: ws) fills cur false =
      (if cfg.text_width_em < cur + t.space_width + measure_str t w then
        wrapLoop t cfg ws (fills ++ [cur / cfg.text_width_em]) (measure_str t w) false
      else wrapLoop t cfg ws fills (cur + t.space_width + measure_str t w) false) := by
  simp [wrapLoop]

/-- One steady-phase step of the estimate loop. -/
lemma estLoop_cons_false (t : FontMetricTable) (cfg : PageConfig)
    (w : List Char) (ws : List (List Char)) (cnt : ℕ) (cur : ℚ) :
    estLoop t cfg (w :: ws) cnt cur false =
      (if cfg.text_width_em < cur + t.space_width + measure_str t w then
        estLoop t cfg ws (min (cnt + 1) 255) (measure_str t w) false
      else estLoop t cfg ws cnt (cur + t.space_width + measure_str t w) false) := by
  simp [estLoop]

/-- One step of `breaksFromW`, stated for rewriting. -/
lemma breaksFromW_cons (t : FontMetricTable) (W : ℚ) (w : List Char)
    (ws : List (List Char)) (cur : ℚ) :
    breaksFromW t W (w :: ws) cur =
      (if W < cur + t.space_width + measure_str t w then
        breaksFromW t W ws (measure_str t w) + 1
      else breaksFromW t W ws (cur + t.space_width + measure_str t w)) := by
  simp [breaksFromW]

/-- In the steady phase (`first_on_line = false`) the wrap loop pushes
exactly `breaksFromW` fills beyond its accumulator. -/
lemma wrapLoop_length (t : FontMetricTable) (cfg : PageConfig) :
    ∀ (ws : List (List Char)) (fills : List ℚ) (cur : ℚ),
      ((wrapLoop t cfg ws fills cur false).1).length =
        fills.length + breaksFromW t cfg.text_width_em ws cur
  | [], fills, cur => by simp [wrapLoop, breaksFromW]
  | w :: ws, fills, cur => by
    rw [wrapLoop_cons_false, breaksFromW_cons]
    split
    · rw [wrapLoop_length t cfg ws]
      simp
      omega
    · rw [wrapLoop_length t cfg ws]

/-- In the steady phase the estimate loop saturates the break count at
255 (u8 saturating addition). -/
lemma estLoop_count (t : FontMetricTable) (cfg : PageConfig) :
    ∀ (ws : List (List Char)) (cnt : ℕ) (cur : ℚ), cnt ≤ 255 →
      (estLoop t cfg ws cnt cur false).1 =
        min (cnt + breaksFromW t cfg.text_width_em ws cur) 255
  | [], cnt, cur, h => by
    simp [estLoop, breaksFromW, Nat.min_eq_left h]
  | w :: ws, cnt, cur, h => by
    rw [estLoop_cons_false, breaksFromW_cons]
    split
    · rw [estLoop_count t cfg ws _ _ (by omega)]
      omega
    · rw [estLoop_count t cfg ws _ _ h]

/-- If the steady phase takes no break, the accumulated width stays at
most the page width (each addition is guarded). -/
lemma wrapLoop_cur_le_of_no_break (t : FontMetricTable) (cfg : PageConfig) :
    ∀ (ws : List (List Char)) (fills : List ℚ) (cur : ℚ), ws ≠ [] →
      breaksFromW t cfg.text_width_em ws cur = 0 →
      (wrapLoop t cfg ws fills cur false).2.1 ≤ cfg.text_width_em
  | [], _, _, hne, _ => absurd rfl hne
  | w :: ws, fills, cur, _, hz => by
    rw [breaksFromW_cons] at hz
    rw [wrapLoop_cons_false]
    have hnb : ¬ cfg.text_width_em < cur + t.space_width + measure_str t w := by
      intro hlt
      rw [if_pos hlt] at hz
      omega
    rw [if_neg hnb] at hz ⊢
    cases ws with
    | nil =>
      simp only [wrapLoop]
      exact le_of_not_lt hnb
    | cons w' ws' =>
      exact wrapLoop_cur_le_of_no_break t cfg (w' :: ws') fills _ (by simp) hz

/-- A nonnegative width table measures every word nonnegatively. -/
lemma measure_nonneg (t : FontMetricTable) (ht : NonnegTable t) (w : List Char) :
    0 ≤ measure_str t w := by
  refine List.sum_nonneg ?_
  intro x hx
  rcases List.mem_map.mp hx with ⟨c, _, rfl⟩
  unfold charWidth
  split
  · exact ht.1 _
  · exact ht.2.1

/-- Core monotonicity of the greedy wrap, for nonnegative width
tables: with a wider page (`W1 ≤ W2`) the wrap takes (1) no more
breaks when started no further into the line, and (2) at most one more
break from arbitrary nonnegative starts. -/
lemma breaksFromW_mono (t : FontMetricTable) (ht : NonnegTable t)
    (W1 W2 : ℚ) (hW : W1 ≤ W2) :
    ∀ (ws : List (List Char)) (cur1 cur2 : ℚ),
      (0 ≤ cur2 → cur2 ≤ cur1 →
        breaksFromW t W2 ws cur2 ≤ breaksFromW t W1 ws cur1) ∧
      (0 ≤ cur1 → 0 ≤ cur2 →
        breaksFromW t W2 ws cur2 ≤ breaksFromW t W1 ws cur1 + 1)
  | [], cur1, cur2 => by simp [breaksFromW]
  | w :: ws, cur1, cur2 => by
    have hw := measure_nonneg t ht w
    have hs := ht.2.2
    constructor
    · intro h2 h12
      rw [breaksFromW_cons, breaksFromW_cons]
      by_cases hG1 : W1 < cur1 + t.space_width + measure_str t w
      · by_cases hG2 : W2 < cur2 + t.space_width + measure_str t w
        · rw [if_pos hG1, if_pos hG2]
          have := (breaksFromW_mono t ht W1 W2 hW ws (measure_str t w)
            (measure_str t w)).1 hw le_rfl
          omega
        · rw [if_pos hG1, if_neg hG2]
          have := (breaksFromW_mono t ht W1 W2 hW ws (measure_str t w)
            (cur2 + t.space_width + measure_str t w)).2 hw (by linarith)
          omega
      · have hG2 : ¬ W2 < cur2 + t.space_width + measure_str t w := by
          intro hlt
          exact hG1 (by linarith)
        rw [if_neg hG1, if_neg hG2]
        exact (breaksFromW_mono t ht W1 W2 hW ws
          (cur1 + t.space_width + measure_str t w)
          (cur2 + t.space_width + measure_str t w)).1 (by linarith) (by linarith)
    · intro h1 h2
      rw [breaksFromW_cons, breaksFromW_cons]
      by_cases hG2 : W2 < cur2 + t.space_width + measure_str t w
      · by_cases hG1 : W1 < cur1 + t.space_width + measure_str t w
        · rw [if_pos hG1, if_pos hG2]
          have := (breaksFromW_mono t ht W1 W2 hW ws (measure_str t w)
            (measure_str t w)).1 hw le_rfl
          omega
        · rw [if_neg hG1, if_pos hG2]
          have := (breaksFromW_mono t ht W1 W2 hW ws
            (cur1 + t.space_width + measure_str t w) (measure_str t w)).1 hw
            (by linarith)
          omega
      · by_cases hG1 : W1 < cur1 + t.space_width + measure_str t w
        · rw [if_pos hG1, if_neg hG2]
          have := (breaksFromW_mono t ht W1 W2 hW ws (measure_str t w)
            (cur2 + t.space_width + measure_str t w)).2 hw (by linarith)
          omega
        · rw [if_neg hG1, if_neg hG2]
          have := (breaksFromW_mono t ht W1 W2 hW ws
            (cur1 + t.space_width + measure_str t w)
            (cur2 + t.space_width + measure_str t w)).2 (by linarith) (by linarith)
          omega

/-- The reported line count is always the fill-vector length reduced
mod 256 (the `as u8` cast). -/
lemma simulate_lines_count_mod (text : String) (t : FontMetricTable)
    (cfg : PageConfig) :
    (simulate_lines text t cfg).1 = (simulate_lines text t cfg).2.length % 256 := by
  unfold simulate_lines
  dsimp only
  by_cases h : splitWhitespace text.toList = []
  · rw [if_pos h]
    rfl
  · rw [if_neg h]

/-- For a non-empty word list the fill-vector length is the steady-phase
break count plus one (the unconditionally pushed last line). -/
lemma simulate_lines_length (text : String) (t : FontMetricTable)
    (cfg : PageConfig) (w : List Char) (ws : List (List Char))
    (hw : splitWhitespace text.toList = w :: ws) :
    (simulate_lines text t cfg).2.length =
      breaksFromW t cfg.text_width_em ws (measure_str t w) + 1 := by
  unfold simulate_lines
  rw [hw]
  simp only [List.cons_ne_self, if_neg (by simp : ¬ w :: ws = [])]
  rw [wrapLoop_cons_first]
  simp [wrapLoop_length]

/-- For a non-empty word list the fill vector is the steady-phase fills
plus the final partial line. -/
lemma simulate_lines_fills (text : String) (t : FontMetricTable)
    (cfg : PageConfig) (w : List Char) (ws : List (List Char))
    (hw : splitWhitespace text.toList = w :: ws) :
    (simulate_lines text t cfg).2 =
      (wrapLoop t cfg ws [] (measure_str t w) false).1 ++
        [(wrapLoop t cfg ws [] (measure_str t w) false).2.1 / cfg.text_width_em] := by
  unfold simulate_lines
  rw [hw]
  simp only [List.cons_ne_self, if_neg (by simp : ¬ w :: ws = [])]
  rw [wrapLoop_cons_first]

/-- Empty or whitespace-only text wraps to no lines at all. -/
lemma simulate_lines_nil (text : String) (t : FontMetricTable)
    (cfg : PageConfig) (h : splitWhitespace text.toList = []) :
    simulate_lines text t cfg = (0, []) := by
  unfold simulate_lines
  dsimp only
  rw [if_pos h]

/-! ### Claims about the greedy wrap (C2, C9, C10) -/

/-- **C2** (counterexample): invariant I5 fails as stated.  The single
word `aa` measures 4 em on a 1 em page: `simulate_lines` reports a
simulated line count of 1, yet the reported line-1 fill is 4 > 1. -/
theorem line1_fill_gt_one_single_word :
    (simulate_lines ("aa") flatTable narrowConfig).1 = 1 ∧
    ¬ ((simulate_lines ("aa") flatTable narrowConfig).2.headD 0 ≤ 1) := by
  decide

/-- **C2** (amended): line-1 fill ≤ 1.0 holds whenever the greedy wrap
produces exactly one fill entry and the text has at least two words
(equivalently: unless the text is a single word wider than the page).
On a positive page width, a no-break run keeps the accumulated width at
most the page width, so the single pushed fill is at most 1. -/
theorem line1_fill_le_one_of_two_words (text : String) (t : FontMetricTable)
    (cfg : PageConfig) (hW : 0 < cfg.text_width_em)
    (h2 : 2 ≤ (splitWhitespace text.toList).length)
    (h1 : (simulate_lines text t cfg).2.length = 1) :
    (simulate_lines text t cfg).2.headD 0 ≤ 1 := by
  cases hw : splitWhitespace text.toList with
  | nil => rw [hw] at h2; simp at h2
  | cons w0 tail =>
    cases tail with
    | nil => rw [hw] at h2; simp at h2
    | cons w1 rest =>
      have hfills := simulate_lines_fills text t cfg w0 (w1 :: rest) hw
      have hlen := simulate_lines_length text t cfg w0 (w1 :: rest) hw
      have hbr : breaksFromW t cfg.text_width_em (w1 :: rest)
          (measure_str t w0) = 0 := by omega
      have hwl := wrapLoop_length t cfg (w1 :: rest) [] (measure_str t w0)
      have hnil : (wrapLoop t cfg (w1 :: rest) [] (measure_str t w0) false).1 = [] :=
        List.eq_nil_of_length_eq_zero (by rw [hwl, hbr]; rfl)
      rw [hfills, hnil]
      simp only [List.nil_append, List.headD_cons]
      rw [div_le_one hW]
      exact wrapLoop_cur_le_of_no_break t cfg (w1 :: rest) [] (measure_str t w0)
        (by simp) hbr

/-- **C2** (witness): a concrete two-word one-line text whose line-1
fill is at most 1. -/
theorem line1_fill_le_one_witness :
    0 < tenConfig.text_width_em ∧
    2 ≤ (splitWhitespace ("a a").toList).length ∧
    (simulate_lines ("a a") flatTable tenConfig).2.length = 1 ∧
    (simulate_lines ("a a") flatTable tenConfig).2.headD 0 ≤ 1 :=
  ⟨by decide, by decide, by decide,
    line1_fill_le_one_of_two_words ("a a") flatTable tenConfig (by decide)
      (by decide) (by decide)⟩

/-- **C9** (counterexample): monotonicity of the REPORTED line count
fails.  256 copies of the word `a` on a 1 em page wrap to 256 lines and
the u8 cast reports 0; on a 1000 em page (same configuration otherwise)
they fit on one line, reported 1 — and 1 ≤ 0 is false. -/
theorem reported_count_not_monotone :
    narrowConfig.text_width_em < wideConfig.text_width_em ∧
    ¬ ((simulate_lines manyWordText flatTable wideConfig).1 ≤
        (simulate_lines manyWordText flatTable narrowConfig).1) := by
  decide

/-- **C9** (amended): for width tables with nonnegative entries,
wrapping the same string with a greater `text_width_em` yields a fill
vector of length (the pre-cast line count) at most the original. -/
theorem fill_vector_length_monotone (s : String) (t : FontMetricTable)
    (cfg1 cfg2 : PageConfig) (ht : NonnegTable t)
    (hW : cfg1.text_width_em ≤ cfg2.text_width_em) :
    (simulate_lines s t cfg2).2.length ≤ (simulate_lines s t cfg1).2.length := by
  cases hw : splitWhitespace s.toList with
  | nil =>
    rw [simulate_lines_nil s t cfg1 hw, simulate_lines_nil s t cfg2 hw]
  | cons w ws =>
    rw [simulate_lines_length s t cfg1 w ws hw,
      simulate_lines_length s t cfg2 w ws hw]
    have := (breaksFromW_mono t ht cfg1.text_width_em cfg2.text_width_em hW ws
      (measure_str t w) (measure_str t w)).1 (measure_nonneg t ht w) le_rfl
    omega

/-- **C9** (witness): three words on the wide page take no more lines
than on the narrow page. -/
theorem fill_vector_length_monotone_witness :
    NonnegTable flatTable ∧
    narrowConfig.text_width_em ≤ wideConfig.text_width_em ∧
    (simulate_lines (String.mk (manyWords 3)) flatTable wideConfig).2.length ≤
      (simulate_lines (String.mk (manyWords 3)) flatTable narrowConfig).2.length :=
  ⟨⟨fun _ => by norm_num [flatTable], by norm_num [flatTable],
      by norm_num [flatTable]⟩,
    by decide,
    fill_vector_length_monotone (String.mk (manyWords 3)) flatTable narrowConfig
      wideConfig
      ⟨fun _ => by norm_num [flatTable], by norm_num [flatTable],
        by norm_num [flatTable]⟩
      (by decide)⟩

/-- **C10** (counterexample): the two greedy wraps disagree on very
long input.  256 copies of `a` on a 1 em page: `estimated_lines`
saturates at 255 while `simulate_lines` casts 256 to 0. -/
theorem estimated_lines_disagrees_at_256_lines :
    (simulate_lines manyWordText flatTable narrowConfig).2.length = 256 ∧
    estimated_lines flatTable manyWordText narrowConfig = 255 ∧
    (simulate_lines manyWordText flatTable narrowConfig).1 = 0 ∧
    ¬ (estimated_lines flatTable manyWordText narrowConfig =
        (simulate_lines manyWordText flatTable narrowConfig).1) := by
  refine ⟨by decide, by decide, by decide, by decide⟩

/-- **C10** (amended): `estimated_lines` equals the fill-vector length
of `simulate_lines` saturated at 255; hence the two wraps agree exactly
when the wrap produces at most 255 lines (in particular both report 0
on empty or whitespace-only input). -/
theorem estimated_lines_eq_min_fills (s : String) (t : FontMetricTable)
    (cfg : PageConfig) :
    estimated_lines t s cfg = min (simulate_lines s t cfg).2.length 255 ∧
    ((simulate_lines s t cfg).2.length ≤ 255 →
      estimated_lines t s cfg = (simulate_lines s t cfg).1) := by
  have hmain : estimated_lines t s cfg = min (simulate_lines s t cfg).2.length 255 := by
    cases hw : splitWhitespace s.toList with
    | nil =>
      rw [simulate_lines_nil s t cfg hw]
      unfold estimated_lines
      dsimp only
      rw [hw]
      rfl
    | cons w ws =>
      rw [simulate_lines_length s t cfg w ws hw]
      unfold estimated_lines
      dsimp only
      rw [hw, if_neg (by simp : ¬ (w :: ws : List (List Char)) = [])]
      rw [estLoop_cons_first, estLoop_count t cfg ws 1 _ (by norm_num)]
      omega
  refine ⟨hmain, fun hle => ?_⟩
  rw [hmain, simulate_lines_count_mod]
  rw [Nat.mod_eq_of_lt (by omega)]
  omega

/-- **C10** (witness): on a realistic short bullet the two wraps agree. -/
theorem estimated_lines_agreement_witness :
    (simulate_lines ("Built it.") INTER_TABLE interConfig).2.length ≤ 255 ∧
    estimated_lines INTER_TABLE ("Built it.") interConfig =
      (simulate_lines ("Built it.") INTER_TABLE interConfig).1 :=
  ⟨by decide,
    (estimated_lines_eq_min_fills ("Built it.") INTER_TABLE interConfig).2
      (by decide)⟩

/-! ### C1: contract classification -/

/-- **C1**: `check_contract` classifies exactly as the spec's case
analysis of the reported line count with the line-1 / line-2 fills:
count 0 or 1 → TooShort below 0.80 else Satisfies; count 2 →
SecondLineTooShort below 0.70 else Satisfies; count ≥ 3 → TooLong.
The strict `<` gives Satisfies at fills of exactly 0.80 / 0.70, and the
empty string wraps to 0 lines with line-1 fill 0 and is TooShort. -/
theorem check_contract_matches_spec (idx : ℕ) (text : String)
    (t : FontMetricTable) (cfg : PageConfig) :
    (check_contract idx text t cfg).verdict =
      specContractVerdict (simulate_lines text t cfg).1
        ((simulate_lines text t cfg).2.headD 0)
        ((simulate_lines text t cfg).2.get? 1) ∧
    simulate_lines "" t cfg = (0, []) ∧
    (check_contract idx "" t cfg).verdict = .tooShort 0 0.80 := by
  refine ⟨rfl, rfl, rfl⟩

/-! ### C4: page fill analysis -/

/-- **C4**: on a page with at least one usable line, the page-fill
verdict is the spec's pure function of
`(Σ verified_line_count, usable_height_lines)` through the ratio `r`:
MajorOverflow iff r > 1.05, MinorOverflow iff 1 < r ≤ 1.05,
TooMuchWhitespace iff r ≤ 1 with whitespace > 0.08, Acceptable
otherwise; the whitespace and overflow fractions are `max 0 (1 − r)`
and `max 0 (r − 1)`.  (The sum is the u16 sum the code computes.) -/
theorem analyze_page_fill_matches_spec (bullets : List SimulatedBullet)
    (cfg : PageConfig) (_hA : 0 < cfg.usable_height_lines) :
    FillVerdictSpec bullets cfg := by
  unfold FillVerdictSpec analyze_page_fill
  dsimp only
  set r : ℚ := (totalLinesUsed bullets : ℚ) / (cfg.usable_height_lines : ℚ) with hr
  refine ⟨max_comm _ _, max_comm _ _, ?_⟩
  split_ifs with h1 h2 h3
  · exact ⟨⟨fun _ => h1, fun _ => rfl⟩,
      ⟨False.elim, fun h => by linarith [h.2]⟩,
      ⟨False.elim, fun h => by linarith [h.1]⟩,
      ⟨False.elim, fun h => by linarith [h.1]⟩⟩
  · exact ⟨⟨False.elim, fun h => h1 h⟩,
      ⟨fun _ => ⟨by linarith, by linarith⟩, fun _ => rfl⟩,
      ⟨False.elim, fun h => by linarith [h.1]⟩,
      ⟨False.elim, fun h => by linarith [h.1]⟩⟩
  · have hr1 : (0.08 : ℚ) < 1 - r := by
      rcases le_or_lt (1 - r) 0 with hc | hc
      · rw [max_eq_right hc] at h3; linarith
      · rwa [max_eq_left (le_of_lt hc)] at h3
    exact ⟨⟨False.elim, fun h => h1 h⟩,
      ⟨False.elim, fun h => by linarith [h.1]⟩,
      ⟨fun _ => ⟨by linarith, hr1⟩, fun _ => rfl⟩,
      ⟨False.elim, fun h => by linarith [h.2]⟩⟩
  · have hws : 1 - r ≤ 0.08 := by
      have := le_max_left (1 - r) (0 : ℚ)
      have := not_lt.mp h3
      linarith
    exact ⟨⟨False.elim, fun h => h1 h⟩,
      ⟨False.elim, fun h => by linarith [h.1]⟩,
      ⟨False.elim, fun h => by linarith [h.2]⟩,
      ⟨fun _ => ⟨by linarith, hws⟩, fun _ => rfl⟩⟩

/-- **C4** (witness): 43 one-line bullets on the default 45-line page
(spec scenario 6, whitespace 2/45 ≤ 0.08). -/
theorem analyze_page_fill_witness :
    0 < interConfig.usable_height_lines ∧ FillVerdictSpec fortyThreeBullets interConfig :=
  ⟨by decide, analyze_page_fill_matches_spec fortyThreeBullets interConfig (by decide)⟩

/-! ### C3: promotion scoring -/

/-- The imperative digit scan finds a hit exactly when some position
satisfies the positional description. -/
lemma quantScan_iff : ∀ (l : List Char) (prev : Option Char),
    quantScan prev l = true ↔ QScanSpec prev l
  | [], prev => by
    simp [quantScan, QScanSpec]
  | c :: rest, prev => by
    rw [quantScan]
    by_cases hcond :
        (c.isDigit && (((rest.head?.map isUnitChar).getD false) || prev == some '$')) = true
    · rw [if_pos hcond]
      rw [Bool.and_eq_true, Bool.or_eq_true] at hcond
      obtain ⟨hdig, hor⟩ := hcond
      refine iff_of_true rfl ⟨0, c, rfl, hdig, ?_⟩
      rcases hor with hunit | hprev
      · left
        cases rest with
        | nil => simp at hunit
        | cons u rs =>
          simp only [List.head?_cons, Option.map_some, Option.getD_some] at hunit
          exact ⟨u, rfl, hunit⟩
      · right
        rw [if_pos rfl]
        exact beq_iff_eq.mp hprev
    · rw [if_neg hcond, quantScan_iff rest (some c)]
      constructor
      · rintro ⟨k, d, hk, hd, hrest⟩
        refine ⟨k + 1, d, by simpa using hk, hd, ?_⟩
        rcases hrest with ⟨u, hu, hunit⟩ | hdollar
        · exact Or.inl ⟨u, by simpa using hu, hunit⟩
        · right
          rw [if_neg (Nat.succ_ne_zero k)]
          cases k with
          | zero =>
            rw [if_pos rfl] at hdollar
            simpa using hdollar
          | succ j =>
            rw [if_neg (Nat.succ_ne_zero j)] at hdollar
            simpa using hdollar
      · rintro ⟨i, d, hi, hd, hrest⟩
        cases i with
        | zero =>
          exfalso
          apply hcond
          rw [List.get?_cons_zero, Option.some_inj] at hi
          subst hi
          rw [Bool.and_eq_true, Bool.or_eq_true]
          refine ⟨hd, ?_⟩
          rcases hrest with ⟨u, hu, hunit⟩ | hp
          · left
            rw [List.get?_cons_succ] at hu
            cases rest with
            | nil => simp at hu
            | cons u' rs =>
              rw [List.get?_cons_zero, Option.some_inj] at hu
              subst hu
              simpa using hunit
          · right
            rw [if_pos rfl] at hp
            exact beq_iff_eq.mpr hp
        | succ k =>
          refine ⟨k, d, by simpa using hi, hd, ?_⟩
          rcases hrest with ⟨u, hu, hunit⟩ | hp
          · exact Or.inl ⟨u, by simpa using hu, hunit⟩
          · right
            rw [if_neg (Nat.succ_ne_zero k)] at hp
            cases k with
            | zero =>
              rw [if_pos rfl]
              simpa using hp
            | succ j =>
              rw [if_neg (Nat.succ_ne_zero j)]
              simpa using hp

/-- The Rust filter-map-filter-count of `compute_technical_depth`
computes the spec's fraction over H. -/
lemma compute_technical_depth_eq (text : String) (jd : ParsedJD) :
    compute_technical_depth text jd = spec_technical_depth text jd := by
  unfold compute_technical_depth spec_technical_depth
  dsimp only
  by_cases h : (jd.keyword_inventory.filter fun k => decide (0.6 ≤ k.position_weight)) = []
  · rw [if_pos (by rw [h]; rfl), if_pos h]
  · rw [if_neg (fun hc => h (List.map_eq_nil_iff.mp hc)), if_neg h]
    rw [List.length_map]
    congr 2
    rw [← List.countP_eq_length_filter, List.countP_map]
    rfl

/-- The Rust set-membership count of `compute_jd_relevance` computes
the spec's fraction over the used keywords. -/
lemma compute_jd_relevance_eq (used : List String) (jd : ParsedJD) :
    compute_jd_relevance used jd = spec_jd_relevance used jd := by
  unfold compute_jd_relevance spec_jd_relevance
  dsimp only
  by_cases h : used = []
  · rw [if_pos h, if_pos h]
  · rw [if_neg h, if_neg h]
    congr 2
    rw [← List.countP_eq_length_filter]

/-- **C3**: `score_promotion` computes the spec's reference definition:
quantified_outcome is 1 exactly on texts matching the digit-unit /
dollar-digit pattern (0 otherwise), technical_depth and jd_relevance
are the spec's clamped fractions (0.5 neutral / 0.0 empty defaults),
and eligibility is the conjunction of the three ≥ 0.7 comparisons. -/
theorem score_promotion_matches_spec (b : DraftBullet) (jd : ParsedJD) :
    ((score_promotion b jd).quantified_outcome = 1 ↔ SpecQuantified b.text) ∧
    ((score_promotion b jd).quantified_outcome = 0 ↔ ¬ SpecQuantified b.text) ∧
    (score_promotion b jd).technical_depth = spec_technical_depth b.text jd ∧
    (score_promotion b jd).jd_relevance = spec_jd_relevance b.jd_keywords_used jd ∧
    ((score_promotion b jd).eligible_for_two_lines = true ↔
      (0.7 ≤ (score_promotion b jd).quantified_outcome ∧
        0.7 ≤ (score_promotion b jd).technical_depth ∧
        0.7 ≤ (score_promotion b jd).jd_relevance)) := by
  have hbool : has_quantified_outcome b.text = true ↔ SpecQuantified b.text :=
    quantScan_iff (lowerList b.text.toList) none
  unfold score_promotion
  dsimp only
  refine ⟨?_, ?_, compute_technical_depth_eq b.text jd,
    compute_jd_relevance_eq b.jd_keywords_used jd, ?_⟩
  · by_cases hb : has_quantified_outcome b.text
    · rw [if_pos hb]
      exact iff_of_true (by norm_num) (hbool.mp hb)
    · rw [if_neg hb]
      exact iff_of_false (by norm_num) (fun hs => hb (hbool.mpr hs))
  · by_cases hb : has_quantified_outcome b.text
    · rw [if_pos hb]
      exact iff_of_false (by norm_num) (fun hs => hs (hbool.mp hb))
    · rw [if_neg hb]
      exact iff_of_true rfl (fun hs => hb (hbool.mpr hs))
  · simp only [Bool.and_eq_true, decide_eq_true_eq, and_assoc]

/-! ### C5, C6: enumeration and fold lemmas -/

/-- Membership in the index enumeration. -/
lemma mem_enumIdx : ∀ (l : List α) (n : ℕ) (i : ℕ) (x : α),
    (i, x) ∈ enumIdx n l ↔ ∃ k, i = n + k ∧ l.get? k = some x
  | [], n, i, x => by simp [enumIdx]
  | a :: l, n, i, x => by
    simp only [enumIdx, List.mem_cons, Prod.mk.injEq, mem_enumIdx l (n + 1) i x]
    constructor
    · rintro (⟨rfl, rfl⟩ | ⟨k, rfl, hget⟩)
      · exact ⟨0, by omega, by simp⟩
      · exact ⟨k + 1, by omega, by simpa using hget⟩
    · rintro ⟨k, rfl, hget⟩
      cases k with
      | zero =>
        rw [List.get?_cons_zero, Option.some_inj] at hget
        exact Or.inl ⟨by omega, hget.symm⟩
      | succ k =>
        exact Or.inr ⟨k, by omega, by simpa using hget⟩

/-- The index enumeration carries strictly increasing indices. -/
lemma enumIdx_pairwise : ∀ (l : List α) (n : ℕ),
    List.Pairwise (fun p q : ℕ × α => p.1 < q.1) (enumIdx n l)
  | [], _ => List.Pairwise.nil
  | a :: l, n => by
    refine List.pairwise_cons.mpr ⟨?_, enumIdx_pairwise l (n + 1)⟩
    rintro ⟨i, x⟩ hq
    rcases (mem_enumIdx l (n + 1) i x).mp hq with ⟨k, rfl, -⟩
    show n < n + 1 + k
    omega

/-- The `max_by` fold over index-sorted pairs returns an element of the
list whose key is maximal, and whose index is the LARGEST among equal
keys. -/
lemma foldl_maxStep_spec {β : Type} (key : ℕ × β → ℚ) :
    ∀ (l : List (ℕ × β)) (acc : ℕ × β),
      List.Pairwise (fun p q : ℕ × β => p.1 < q.1) (acc :: l) →
      (l.foldl (maxStep key) acc ∈ acc :: l) ∧
      (∀ z ∈ acc :: l, key z ≤ key (l.foldl (maxStep key) acc)) ∧
      (∀ z ∈ acc :: l, key z = key (l.foldl (maxStep key) acc) →
        z.1 ≤ (l.foldl (maxStep key) acc).1)
  | [], acc, _ => by
    refine ⟨List.mem_cons_self _ _, ?_, ?_⟩
    · intro z hz
      rcases List.mem_cons.mp hz with hz0 | hz'
      · rw [hz0]
        exact le_rfl
      · simp at hz'
    · intro z hz _
      rcases List.mem_cons.mp hz with hz0 | hz'
      · rw [hz0]
        exact le_rfl
      · simp at hz'
  | y :: ys, acc, hp => by
    obtain ⟨h1, hp2⟩ := List.pairwise_cons.mp hp
    obtain ⟨h2, hp3⟩ := List.pairwise_cons.mp hp2
    have hacc_lt_y : acc.1 < y.1 := h1 y (List.mem_cons_self _ _)
    have hm : maxStep key acc y = acc ∨ maxStep key acc y = y := by
      unfold maxStep
      split
      · exact Or.inl rfl
      · exact Or.inr rfl
    have hkey_acc : key acc ≤ key (maxStep key acc y) := by
      unfold maxStep
      split
      · exact le_rfl
      · rename_i hlt
        exact le_of_not_lt hlt
    have hkey_y : key y ≤ key (maxStep key acc y) := by
      unfold maxStep
      split
      · rename_i hlt
        exact le_of_lt hlt
      · exact le_rfl
    have hp' : List.Pairwise (fun p q : ℕ × β => p.1 < q.1) (maxStep key acc y :: ys) := by
      refine List.pairwise_cons.mpr ⟨?_, hp3⟩
      intro z hz
      rcases hm with h | h <;> rw [h]
      · exact h1 z (List.mem_cons_of_mem y hz)
      · exact h2 z hz
    obtain ⟨ihmem, ihub, ihtie⟩ := foldl_maxStep_spec key ys (maxStep key acc y) hp'
    rw [List.foldl_cons]
    refine ⟨?_, ?_, ?_⟩
    · rcases List.mem_cons.mp ihmem with h | h
      · rw [h]
        rcases hm with h' | h' <;> rw [h']
        · exact List.mem_cons_self _ _
        · exact List.mem_cons_of_mem _ (List.mem_cons_self _ _)
      · exact List.mem_cons_of_mem _ (List.mem_cons_of_mem _ h)
    · intro z hz
      rcases List.mem_cons.mp hz with hz0 | hz'
      · rw [hz0]
        exact le_trans hkey_acc (ihub _ (List.mem_cons_self _ _))
      rcases List.mem_cons.mp hz' with hz1 | hz''
      · rw [hz1]
        exact le_trans hkey_y (ihub _ (List.mem_cons_self _ _))
      · exact ihub z (List.mem_cons_of_mem _ hz'')
    · intro z hz hkz
      rcases List.mem_cons.mp hz with hz0 | hz'
      · rw [hz0] at hkz ⊢
        rcases hm with h' | h'
        · have htie := ihtie (maxStep key acc y) (List.mem_cons_self _ _)
            (by nth_rewrite 1 [h']; exact hkz)
          nth_rewrite 1 [h'] at htie
          exact htie
        · have hrm : ys.foldl (maxStep key) (maxStep key acc y) ∈ y :: ys := by
            rcases List.mem_cons.mp ihmem with h | h
            · rw [h, h']
              exact List.mem_cons_self _ _
            · exact List.mem_cons_of_mem _ h
          exact le_of_lt (h1 _ hrm)
      rcases List.mem_cons.mp hz' with hz1 | hz''
      · rw [hz1] at hkz ⊢
        rcases hm with h' | h'
        · exfalso
          have hylt : key y < key acc := by
            unfold maxStep at h'
            rcases Decidable.em (key y < key acc) with hc | hc
            · exact hc
            · rw [if_neg hc] at h'
              exact absurd (congrArg Prod.fst h') (by omega)
          have hkacc_le : key acc ≤ key (ys.foldl (maxStep key) (maxStep key acc y)) :=
            le_trans hkey_acc (ihub _ (List.mem_cons_self _ _))
          rw [← hkz] at hkacc_le
          exact absurd hkacc_le (not_le.mpr hylt)
        · have htie := ihtie (maxStep key acc y) (List.mem_cons_self _ _)
            (by nth_rewrite 1 [h']; exact hkz)
          nth_rewrite 1 [h'] at htie
          exact htie
      · exact ihtie z (List.mem_cons_of_mem _ hz'') hkz

/-- The `min_by` fold over index-sorted pairs returns an element of the
list whose key is minimal, and whose index is the SMALLEST among equal
keys; additionally the result is the accumulator itself unless a
strictly smaller key was found. -/
lemma foldl_minStep_spec {β : Type} (key : ℕ × β → ℚ) :
    ∀ (l : List (ℕ × β)) (acc : ℕ × β),
      List.Pairwise (fun p q : ℕ × β => p.1 < q.1) (acc :: l) →
      (l.foldl (minStep key) acc ∈ acc :: l) ∧
      (∀ z ∈ acc :: l, key (l.foldl (minStep key) acc) ≤ key z) ∧
      (l.foldl (minStep key) acc = acc ∨
        key (l.foldl (minStep key) acc) < key acc) ∧
      (∀ z ∈ acc :: l, key z = key (l.foldl (minStep key) acc) →
        (l.foldl (minStep key) acc).1 ≤ z.1)
  | [], acc, _ => by
    refine ⟨List.mem_cons_self _ _, ?_, Or.inl rfl, ?_⟩
    · intro z hz
      rcases List.mem_cons.mp hz with hz0 | hz'
      · rw [hz0]
        exact le_rfl
      · simp at hz'
    · intro z hz _
      rcases List.mem_cons.mp hz with hz0 | hz'
      · rw [hz0]
        exact le_rfl
      · simp at hz'
  | y :: ys, acc, hp => by
    obtain ⟨h1, hp2⟩ := List.pairwise_cons.mp hp
    obtain ⟨h2, hp3⟩ := List.pairwise_cons.mp hp2
    have hacc_lt_y : acc.1 < y.1 := h1 y (List.mem_cons_self _ _)
    have hm : minStep key acc y = acc ∨ minStep key acc y = y := by
      unfold minStep
      split
      · exact Or.inr rfl
      · exact Or.inl rfl
    have hkey_m_acc : key (minStep key acc y) ≤ key acc := by
      unfold minStep
      split
      · rename_i hlt
        exact le_of_lt hlt
      · exact le_rfl
    have hkey_m_y : key (minStep key acc y) ≤ key y := by
      unfold minStep
      split
      · exact le_rfl
      · rename_i hlt
        exact le_of_not_lt hlt
    have hp' : List.Pairwise (fun p q : ℕ × β => p.1 < q.1) (minStep key acc y :: ys) := by
      refine List.pairwise_cons.mpr ⟨?_, hp3⟩
      intro z hz
      rcases hm with h | h <;> rw [h]
      · exact h1 z (List.mem_cons_of_mem y hz)
      · exact h2 z hz
    obtain ⟨ihmem, ihlb, ihacc, ihtie⟩ := foldl_minStep_spec key ys (minStep key acc y) hp'
    rw [List.foldl_cons]
    have hr_le_m : key (ys.foldl (minStep key) (minStep key acc y)) ≤
        key (minStep key acc y) := ihlb _ (List.mem_cons_self _ _)
    refine ⟨?_, ?_, ?_, ?_⟩
    · rcases List.mem_cons.mp ihmem with h | h
      · rw [h]
        rcases hm with h' | h' <;> rw [h']
        · exact List.mem_cons_self _ _
        · exact List.mem_cons_of_mem _ (List.mem_cons_self _ _)
      · exact List.mem_cons_of_mem _ (List.mem_cons_of_mem _ h)
    · intro z hz
      rcases List.mem_cons.mp hz with hz0 | hz'
      · rw [hz0]
        exact le_trans hr_le_m hkey_m_acc
      rcases List.mem_cons.mp hz' with hz1 | hz''
      · rw [hz1]
        exact le_trans hr_le_m hkey_m_y
      · exact ihlb z (List.mem_cons_of_mem _ hz'')
    · rcases ihacc with hc | hc
      · rcases hm with h' | h'
        · left
          rw [hc, h']
        · right
          have hylt : key y < key acc := by
            unfold minStep at h'
            rcases Decidable.em (key y < key acc) with hcc | hcc
            · exact hcc
            · rw [if_neg hcc] at h'
              exact absurd (congrArg Prod.fst h') (by omega)
          rw [hc, h']
          exact hylt
      · right
        exact lt_of_lt_of_le hc hkey_m_acc
    · intro z hz hkz
      rcases List.mem_cons.mp hz with hz0 | hz'
      · rw [hz0] at hkz ⊢
        rcases hm with h' | h'
        · have htie := ihtie (minStep key acc y) (List.mem_cons_self _ _)
            (by nth_rewrite 1 [h']; exact hkz)
          nth_rewrite 2 [h'] at htie
          exact htie
        · exfalso
          have hylt : key y < key acc := by
            unfold minStep at h'
            rcases Decidable.em (key y < key acc) with hc | hc
            · exact hc
            · rw [if_neg hc] at h'
              exact absurd (congrArg Prod.fst h') (by omega)
          have hle : key acc ≤ key y := by
            rw [hkz]
            calc key (ys.foldl (minStep key) (minStep key acc y))
                ≤ key (minStep key acc y) := hr_le_m
              _ = key y := by rw [h']
          exact absurd hle (not_le.mpr hylt)
      rcases List.mem_cons.mp hz' with hz1 | hz''
      · rw [hz1] at hkz ⊢
        rcases hm with h' | h'
        · have hacc_le_y : key acc ≤ key y := by
            unfold minStep at h'
            rcases Decidable.em (key y < key acc) with hc | hc
            · rw [if_pos hc] at h'
              exact absurd (congrArg Prod.fst h') (by omega)
            · exact le_of_not_lt hc
          rcases ihacc with hc | hc
          · rw [hc, h']
            exact le_of_lt hacc_lt_y
          · exfalso
            have h2' : key (ys.foldl (minStep key) (minStep key acc y)) < key acc := by
              calc key (ys.foldl (minStep key) (minStep key acc y))
                  < key (minStep key acc y) := hc
                _ = key acc := by rw [h']
            rw [← hkz] at h2'
            exact absurd hacc_le_y (not_le.mpr h2')
        · have htie := ihtie (minStep key acc y) (List.mem_cons_self _ _)
            (by nth_rewrite 1 [h']; exact hkz)
          nth_rewrite 2 [h'] at htie
          exact htie
      · exact ihtie z (List.mem_cons_of_mem _ hz'') hkz

/-- `find_lowest_scoring_bullet` on a non-empty list returns an index
holding a bullet of minimal JD-match score, lowest index on ties. -/
lemma find_lowest_spec (bullets : List SimulatedBullet) (jd : ParsedJD)
    (hne : bullets ≠ []) :
    ∃ i, find_lowest_scoring_bullet bullets jd = some i ∧
      LowestScoringAt bullets jd i := by
  cases bullets with
  | nil => exact absurd rfl hne
  | cons b bs =>
    have hpw : List.Pairwise (fun p q : ℕ × SimulatedBullet => p.1 < q.1)
        ((0, b) :: enumIdx 1 bs) := enumIdx_pairwise (b :: bs) 0
    obtain ⟨hmem, hlb, -, htie⟩ := foldl_minStep_spec
      (fun p => keyword_match_score p.2.jd_keywords_used (jd_keyword_set jd))
      (enumIdx 1 bs) (0, b) hpw
    set r := (enumIdx 1 bs).foldl
      (minStep fun p => keyword_match_score p.2.jd_keywords_used (jd_keyword_set jd))
      (0, b) with hrdef
    have hfind : find_lowest_scoring_bullet (b :: bs) jd = some r.1 := by
      unfold find_lowest_scoring_bullet
      rw [if_neg (by simp)]
      rfl
    refine ⟨r.1, hfind, ?_⟩
    obtain ⟨k, hk, hget⟩ := (mem_enumIdx (b :: bs) 0 r.1 r.2).mp hmem
    have hk' : k = r.1 := by omega
    subst hk'
    refine ⟨r.2, hget, ?_⟩
    intro j c hj
    have hjc : (j, c) ∈ (0, b) :: enumIdx 1 bs :=
      (mem_enumIdx (b :: bs) 0 j c).mpr ⟨j, by omega, hj⟩
    exact ⟨hlb (j, c) hjc, fun hkey => htie (j, c) hjc hkey⟩

/-! ### C6: overflow remediation -/

/-- **C6**: under MinorOverflow the recommendation is
CompressBullet{idx}, under MajorOverflow RemoveBullet{idx}, where idx in
both cases is a bullet of minimal JD-keyword match count (the count of
the bullet's used keywords matching the JD keyword strings
case-insensitively) with ties to the lowest index; an empty bullet list
yields TightenSpacing in both cases. -/
theorem overflow_action_picks_lowest_scoring (analysis : PageFillAnalysis)
    (bullets : List SimulatedBullet) (jd : ParsedJD)
    (h : analysis.verdict = .minorOverflow ∨ analysis.verdict = .majorOverflow) :
    (bullets = [] ∧ recommend_fill_action analysis bullets jd = .tightenSpacing) ∨
    (∃ i, LowestScoringAt bullets jd i ∧
      recommend_fill_action analysis bullets jd =
        (if analysis.verdict = .minorOverflow then FillAction.compressBullet i
          else FillAction.removeBullet i)) := by
  by_cases hb : bullets = []
  · left
    have hnone : find_lowest_scoring_bullet bullets jd = none := by
      unfold find_lowest_scoring_bullet
      rw [if_pos hb]
    rcases h with h | h <;>
      exact ⟨hb, by simp [recommend_fill_action, h, hnone]⟩
  · right
    obtain ⟨i, hfind, hspec⟩ := find_lowest_spec bullets jd hb
    refine ⟨i, hspec, ?_⟩
    rcases h with h | h
    · rw [if_pos h]
      simp [recommend_fill_action, h, hfind]
    · rw [if_neg (by rw [h]; exact fun hc => nomatch hc)]
      simp [recommend_fill_action, h, hfind]

/-- **C6** (witness): spec scenario 5 — 50 one-line bullets overflow
the 45-line page; the bullet at index 1 uses no keyword and is removed. -/
theorem overflow_action_witness :
    ((analyze_page_fill overflowBullets interConfig).verdict = .minorOverflow ∨
      (analyze_page_fill overflowBullets interConfig).verdict = .majorOverflow) ∧
    ((overflowBullets = [] ∧
        recommend_fill_action (analyze_page_fill overflowBullets interConfig)
          overflowBullets jdRust = .tightenSpacing) ∨
      (∃ i, LowestScoringAt overflowBullets jdRust i ∧
        recommend_fill_action (analyze_page_fill overflowBullets interConfig)
          overflowBullets jdRust =
          (if (analyze_page_fill overflowBullets interConfig).verdict =
              .minorOverflow then FillAction.compressBullet i
            else FillAction.removeBullet i))) :=
  ⟨Or.inr (by decide),
    overflow_action_picks_lowest_scoring _ overflowBullets jdRust
      (Or.inr (by decide))⟩

/-! ### C5: whitespace remediation -/

/-- **C5** (counterexample): with two equally scoring promotion
candidates at indices 0 and 1, the code promotes index 1 — `max_by`
keeps the LAST maximum — while the claim requires the lowest index 0. -/
theorem promotion_tie_breaks_to_highest_index :
    recommend_fill_action whitespaceAnalysis [promoBullet, promoBullet] jdRust =
      .promoteBullet 1 ∧
    ¬ (recommend_fill_action whitespaceAnalysis [promoBullet, promoBullet] jdRust =
        .promoteBullet 0) := by
  decide

/-- **C5** (amended): under TooMuchWhitespace the recommendation is
PromoteBullet{idx} for a candidate (1 verified line, not flagged) whose
JD-match score is maximal, with ties broken to the HIGHEST index, and
NoAction when no candidate exists. -/
theorem whitespace_action_spec_holds (analysis : PageFillAnalysis)
    (bullets : List SimulatedBullet) (jd : ParsedJD)
    (h : analysis.verdict = .tooMuchWhitespace) :
    WhitespaceActionSpec bullets jd (recommend_fill_action analysis bullets jd) := by
  have hred : recommend_fill_action analysis bullets jd =
      (match find_best_promotion_candidate bullets jd with
        | some idx => FillAction.promoteBullet idx
        | none => FillAction.noAction) := by
    unfold recommend_fill_action
    rw [h]
  rw [hred]
  cases hcand : (enumIdx 0 bullets).filter
      (fun p => p.2.verified_line_count == 1 && !p.2.flagged_for_review) with
  | nil =>
    have hnone : find_best_promotion_candidate bullets jd = none := by
      unfold find_best_promotion_candidate
      dsimp only
      rw [hcand]
      rfl
    rw [hnone]
    left
    refine ⟨?_, rfl⟩
    rintro i b ⟨hget, hc1, hc2⟩
    have hmem : (i, b) ∈ enumIdx 0 bullets :=
      (mem_enumIdx bullets 0 i b).mpr ⟨i, by omega, hget⟩
    have hfil : (i, b) ∈ (enumIdx 0 bullets).filter
        (fun p => p.2.verified_line_count == 1 && !p.2.flagged_for_review) :=
      List.mem_filter.mpr ⟨hmem, by simp [hc1, hc2]⟩
    rw [hcand] at hfil
    simp at hfil
  | cons x xs =>
    have hpair : List.Pairwise (fun p q : ℕ × SimulatedBullet => p.1 < q.1) (x :: xs) := by
      rw [← hcand]
      exact (enumIdx_pairwise bullets 0).filter _
    obtain ⟨hmem, hub, htie⟩ := foldl_maxStep_spec
      (fun p => keyword_match_score p.2.jd_keywords_used (jd_keyword_set jd)) xs x hpair
    set r := xs.foldl (maxStep fun p =>
      keyword_match_score p.2.jd_keywords_used (jd_keyword_set jd)) x with hrdef
    have hsome : find_best_promotion_candidate bullets jd = some r.1 := by
      unfold find_best_promotion_candidate
      dsimp only
      rw [hcand]
      rfl
    rw [hsome]
    right
    have hrmem : r ∈ (enumIdx 0 bullets).filter
        (fun p => p.2.verified_line_count == 1 && !p.2.flagged_for_review) := by
      rw [hcand]
      exact hmem
    obtain ⟨hrenum, hrpred⟩ := List.mem_filter.mp hrmem
    obtain ⟨k, hk, hget⟩ := (mem_enumIdx bullets 0 r.1 r.2).mp hrenum
    have hk' : k = r.1 := by omega
    subst hk'
    simp only [Bool.and_eq_true, beq_iff_eq, Bool.not_eq_true'] at hrpred
    refine ⟨r.1, r.2, ⟨hget, hrpred.1, hrpred.2⟩, rfl, ?_⟩
    rintro j c ⟨hgetj, hcj1, hcj2⟩
    have hjc : (j, c) ∈ x :: xs := by
      rw [← hcand]
      refine List.mem_filter.mpr
        ⟨(mem_enumIdx bullets 0 j c).mpr ⟨j, by omega, hgetj⟩, ?_⟩
      simp [hcj1, hcj2]
    exact ⟨hub (j, c) hjc, fun hkey => htie (j, c) hjc hkey⟩

/-- **C5** (witness): a single unflagged one-line bullet is promoted. -/
theorem whitespace_action_witness :
    whitespaceAnalysis.verdict = .tooMuchWhitespace ∧
    WhitespaceActionSpec [promoBullet] jdRust
      (recommend_fill_action whitespaceAnalysis [promoBullet] jdRust) :=
  ⟨rfl, whitespace_action_spec_holds whitespaceAnalysis [promoBullet] jdRust rfl⟩

/-! ### C7, C8: simulation loop lemmas -/

/-- `get?` through a single-index update. -/
lemma updateAt_get? : ∀ (l : List α) (i j : ℕ) (f : α → α),
    (updateAt i f l).get? j = if j = i then (l.get? j).map f else l.get? j
  | [], i, j, f => by simp [updateAt]
  | a :: l, 0, 0, f => by simp [updateAt]
  | a :: l, 0, j + 1, f => by simp [updateAt]
  | a :: l, i + 1, 0, f => by simp [updateAt]
  | a :: l, i + 1, j + 1, f => by
    simp only [updateAt, List.get?_cons_succ]
    rw [updateAt_get? l i j f]
    by_cases h : j = i
    · rw [if_pos h, if_pos (by omega)]
    · rw [if_neg h, if_neg (by omega)]

/-- `get?` through the flag-setting fold: the bullet at `j` is flagged
exactly when `j` occurs among the violating indices, and is otherwise
untouched. -/
lemma flagViolations_get? : ∀ (idxs : List ℕ) (sb : List SimulatedBullet) (j : ℕ),
    (flagViolations sb idxs).get? j =
      (sb.get? j).map (fun b =>
        if j ∈ idxs then { b with flagged_for_review := true } else b)
  | [], sb, j => by
    unfold flagViolations
    rw [List.foldl_nil]
    cases sb.get? j with
    | none => rfl
    | some b =>
      simp only [Option.map_some']
      rw [if_neg (List.not_mem_nil j)]
  | i :: rest, sb, j => by
    show (flagViolations
      (updateAt i (fun b => { b with flagged_for_review := true }) sb) rest).get? j = _
    rw [flagViolations_get? rest _ j, updateAt_get?]
    by_cases hji : j = i
    · rw [if_pos hji]
      cases sb.get? j with
      | none => rfl
      | some b =>
        simp only [Option.map_some']
        by_cases hr : j ∈ rest
        · rw [if_pos hr, if_pos (by rw [hji]; exact List.mem_cons_self _ _)]
        · rw [if_neg hr, if_pos (by rw [hji]; exact List.mem_cons_self _ _)]
    · rw [if_neg hji]
      cases sb.get? j with
      | none => rfl
      | some b =>
        simp only [Option.map_some']
        by_cases hr : j ∈ rest
        · rw [if_pos hr, if_pos (List.mem_cons_of_mem _ hr)]
        · rw [if_neg hr, if_neg (by
            intro hc
            rcases List.mem_cons.mp hc with h | h
            · exact hji h
            · exact hr h)]

/-- The contract verdict does not depend on the bullet index. -/
lemma check_verdict_index (i j : ℕ) (text : String) (t : FontMetricTable)
    (cfg : PageConfig) :
    (check_contract i text t cfg).verdict = (check_contract j text t cfg).verdict := rfl

/-- Index membership in the violation list of one measurement pass. -/
lemma mem_violIdx (sb : List SimulatedBullet) (t : FontMetricTable)
    (cfg : PageConfig) (i : ℕ) :
    i ∈ (run_single_pass_sync sb t cfg).map Prod.fst ↔
      ∃ b, sb.get? i = some b ∧
        (check_contract 0 b.text t cfg).verdict ≠ .satisfies := by
  unfold run_single_pass_sync
  constructor
  · intro hi
    obtain ⟨p, hp, hfst⟩ := List.mem_map.mp hi
    obtain ⟨q, hq, hfq⟩ := List.mem_filterMap.mp hp
    dsimp only at hfq
    by_cases hv : (check_contract q.1 q.2.text t cfg).verdict = .satisfies
    · rw [if_pos hv] at hfq
      exact absurd hfq (by simp)
    · rw [if_neg hv] at hfq
      obtain ⟨k, hk, hget⟩ := (mem_enumIdx sb 0 q.1 q.2).mp hq
      have hk' : k = q.1 := by omega
      subst hk'
      have hpq := Option.some_inj.mp hfq
      subst hpq
      refine ⟨q.2, ?_, hv⟩
      have hq1 : q.1 = i := hfst
      rw [← hq1]
      exact hget
  · rintro ⟨b, hget, hv⟩
    refine List.mem_map.mpr ⟨(i, check_contract i b.text t cfg), ?_, rfl⟩
    refine List.mem_filterMap.mpr
      ⟨(i, b), (mem_enumIdx sb 0 i b).mpr ⟨i, by omega, hget⟩, ?_⟩
    dsimp only
    rw [if_neg (show (check_contract i b.text t cfg).verdict ≠ .satisfies from hv)]

/-- The remediation step never touches `flagged_for_review`. -/
lemma applyAdjust_flag (b : SimulatedBullet) (resp : Option String) :
    (applyAdjust b resp).flagged_for_review = b.flagged_for_review := by
  unfold applyAdjust
  dsimp only
  split <;> rfl

/-- `updateAt` with a flag-preserving function preserves unflagged
lists. -/
lemma updateAt_flag_preserve :
    ∀ (l : List SimulatedBullet) (i : ℕ) (f : SimulatedBullet → SimulatedBullet),
      (∀ b, (f b).flagged_for_review = b.flagged_for_review) →
      (∀ b ∈ l, b.flagged_for_review = false) →
      ∀ b ∈ updateAt i f l, b.flagged_for_review = false
  | [], _, _, _, _, b, hb => by simp [updateAt] at hb
  | a :: l, 0, f, hf, hl, b, hb => by
    rcases List.mem_cons.mp hb with h | h
    · rw [h, hf a]
      exact hl a (List.mem_cons_self _ _)
    · exact hl b (List.mem_cons_of_mem _ h)
  | a :: l, i + 1, f, hf, hl, b, hb => by
    rcases List.mem_cons.mp hb with h | h
    · rw [h]
      exact hl a (List.mem_cons_self _ _)
    · exact updateAt_flag_preserve l i f hf
        (fun c hc => hl c (List.mem_cons_of_mem _ hc)) b h

/-- One step of the remediation fold, by verdict. -/
lemma remediatePass_cons (env : SimEnv) (v : ℕ × LineCoverageResult)
    (vs : List (ℕ × LineCoverageResult)) (sb : List SimulatedBullet) (calls : ℕ) :
    remediatePass env (v :: vs) sb calls =
      (match v.2.verdict with
        | .satisfies => remediatePass env vs sb calls
        | _ => remediatePass env vs
            (updateAt v.1 (fun b => applyAdjust b (env.llmResp calls)) sb)
            (calls + 1)) := by
  unfold remediatePass
  rw [List.foldl_cons]
  cases v.2.verdict <;> rfl

/-- The remediation phase preserves an all-unflagged bullet list. -/
lemma remediatePass_unflagged (env : SimEnv) :
    ∀ (viol : List (ℕ × LineCoverageResult)) (sb : List SimulatedBullet) (calls : ℕ),
      (∀ b ∈ sb, b.flagged_for_review = false) →
      ∀ b ∈ (remediatePass env viol sb calls).1, b.flagged_for_review = false
  | [], sb, calls, h => by
    intro b hb
    simp only [remediatePass, List.foldl_nil] at hb
    exact h b hb
  | v :: vs, sb, calls, h => by
    rw [remediatePass_cons]
    cases hv : v.2.verdict with
    | satisfies => exact remediatePass_unflagged env vs sb calls h
    | tooShort fr rq =>
      exact remediatePass_unflagged env vs _ _
        (updateAt_flag_preserve sb v.1 _ (fun b => applyAdjust_flag b _) h)
    | tooLong al =>
      exact remediatePass_unflagged env vs _ _
        (updateAt_flag_preserve sb v.1 _ (fun b => applyAdjust_flag b _) h)
    | secondLineTooShort fr =>
      exact remediatePass_unflagged env vs _ _
        (updateAt_flag_preserve sb v.1 _ (fun b => applyAdjust_flag b _) h)

/-- The bounded pass iteration preserves an all-unflagged list. -/
lemma simPasses_unflagged (env : SimEnv) (t : FontMetricTable) (cfg : PageConfig) :
    ∀ (fuel : ℕ) (sb : List SimulatedBullet) (tp calls d : ℕ)
      (out : List SimulatedBullet × ℕ × ℕ × ℕ),
      simPasses env t cfg fuel sb tp calls d = .ok out →
      (∀ b ∈ sb, b.flagged_for_review = false) →
      ∀ b ∈ out.1, b.flagged_for_review = false
  | 0, sb, tp, calls, d, out, hok, h => by
    unfold simPasses at hok
    cases hok
    exact h
  | fuel + 1, sb, tp, calls, d, out, hok, h => by
    unfold simPasses at hok
    by_cases hd : env.dispatchOk d = false
    · rw [if_pos hd] at hok
      exact absurd hok (by simp)
    · rw [if_neg hd] at hok
      dsimp only at hok
      by_cases hviol : run_single_pass_sync sb t cfg = []
      · rw [if_pos hviol] at hok
        cases hok
        exact h
      · rw [if_neg hviol] at hok
        exact simPasses_unflagged env t cfg fuel _ _ _ _ out hok
          (remediatePass_unflagged env _ sb calls h)

/-- The initial projection starts with every bullet unflagged. -/
lemma init_simulated_unflagged (bs : List DraftBullet) :
    ∀ b ∈ init_simulated bs, b.flagged_for_review = false := by
  intro b hb
  obtain ⟨d, -, rfl⟩ := List.mem_map.mp hb
  rfl

/-- With a dispatch oracle that always succeeds, the pass iteration
cannot fail. -/
lemma simPasses_ok (env : SimEnv) (t : FontMetricTable) (cfg : PageConfig)
    (hdisp : ∀ n, env.dispatchOk n = true) :
    ∀ (fuel : ℕ) (sb : List SimulatedBullet) (tp calls d : ℕ),
      ∃ out, simPasses env t cfg fuel sb tp calls d = .ok out
  | 0, sb, tp, calls, d => ⟨(sb, tp, calls, d), rfl⟩
  | fuel + 1, sb, tp, calls, d => by
    have hd : ¬ env.dispatchOk d = false := by
      rw [hdisp d]
      simp
    unfold simPasses
    rw [if_neg hd]
    dsimp only
    by_cases hviol : run_single_pass_sync sb t cfg = []
    · rw [if_pos hviol]
      exact ⟨(sb, tp + 1, calls, d + 1), rfl⟩
    · rw [if_neg hviol]
      exact simPasses_ok env t cfg hdisp fuel _ _ _ _

/-! ### C7: gateway failure policy -/

/-- **C7** (counterexample): the claim that a SUCCESSFUL gateway call
sets `was_adjusted = true` fails when the gateway returns the bullet's
current text.  Under `envEcho` (always answering `Built it.`) all three
LLM calls succeed, yet the returned bullet has `was_adjusted = false`. -/
theorem identical_llm_text_leaves_was_adjusted_false :
    (run_simulation_loop envEcho [draftShort] interConfig).map
        (fun r => (r.llm_calls_made,
          r.bullets.map fun b => (b.was_adjusted, b.text))) =
      .ok (3, [(false, "Built it.")]) := by
  decide

/-- **C7** (amended): a failed gateway call (`none`) leaves the bullet
unchanged and raises nothing; a successful call replaces the text with
the returned text and sets `was_adjusted` exactly when the returned
text differs from the current text; and with every measurement dispatch
succeeding the loop returns `ok` — dispatch failures are its only error
source. -/
theorem gateway_failure_policy (env : SimEnv) (bs : List DraftBullet)
    (cfg : PageConfig) (b : SimulatedBullet) (s : String) :
    applyAdjust b none = b ∧
    (applyAdjust b (some s)).text = s ∧
    ((applyAdjust b (some s)).was_adjusted =
      if s = b.text then b.was_adjusted else true) ∧
    ((∀ n, env.dispatchOk n = true) →
      ∃ r, run_simulation_loop env bs cfg = Except.ok r) := by
  refine ⟨?_, ?_, ?_, ?_⟩
  · unfold applyAdjust
    dsimp only
    rw [if_neg (by simp)]
  · unfold applyAdjust
    dsimp only
    by_cases h : s = b.text
    · rw [if_neg (by simpa using h)]
      exact h.symm
    · rw [if_pos (by simpa using h)]
      rfl
  · unfold applyAdjust
    dsimp only
    by_cases h : s = b.text
    · rw [if_neg (by simpa using h), if_pos h]
    · rw [if_pos (by simpa using h), if_neg h]
  · intro hdisp
    unfold run_simulation_loop
    dsimp only
    obtain ⟨out, hout⟩ := simPasses_ok env (get_metrics cfg.font) cfg hdisp
      MAX_PASSES (init_simulated bs) 0 0 0
    obtain ⟨sb, tp, calls, d⟩ := out
    rw [hout]
    dsimp only
    rw [if_neg (by rw [hdisp]; simp), if_neg (by rw [hdisp]; simp)]
    exact ⟨_, rfl⟩

/-- **C7** (witness): with an always-succeeding dispatch oracle the loop
returns `ok` on a concrete input. -/
theorem gateway_failure_policy_witness :
    (∀ n, envFail.dispatchOk n = true) ∧
    (∃ r, run_simulation_loop envFail [draftShort] interConfig = Except.ok r) :=
  ⟨fun _ => rfl,
    (gateway_failure_policy envFail [draftShort] interConfig promoBullet
      ("x")).2.2.2 (fun _ => rfl)⟩

/-! ### C8: exit invariants -/

/-- **C8**: whatever the gateway does, when the loop returns `ok` every
returned bullet has `verified_line_count ≥ 1` (exactly 1 on
whitespace-only text), and is flagged for review iff its final text
fails the contract. -/
theorem sim_exit_invariant_holds (env : SimEnv) (bs : List DraftBullet)
    (cfg : PageConfig) (r : SimulationResult)
    (hok : run_simulation_loop env bs cfg = .ok r) :
    SimExitInvariant r cfg := by
  unfold run_simulation_loop at hok
  dsimp only at hok
  cases hsp : simPasses env (get_metrics cfg.font) cfg MAX_PASSES
      (init_simulated bs) 0 0 0 with
  | error e =>
    rw [hsp] at hok
    exact absurd hok (by simp)
  | ok out =>
    obtain ⟨sb, tp, calls, d⟩ := out
    rw [hsp] at hok
    dsimp only at hok
    by_cases hd1 : env.dispatchOk d = false
    · rw [if_pos hd1] at hok
      exact absurd hok (by simp)
    rw [if_neg hd1] at hok
    by_cases hd2 : env.dispatchOk (d + 1) = false
    · rw [if_pos hd2] at hok
      exact absurd hok (by simp)
    rw [if_neg hd2] at hok
    cases hok
    have hunf : ∀ b ∈ sb, b.flagged_for_review = false :=
      simPasses_unflagged env (get_metrics cfg.font) cfg MAX_PASSES
        (init_simulated bs) 0 0 0 (sb, tp, calls, d) hsp
        (init_simulated_unflagged bs)
    intro b hb
    obtain ⟨i, hi⟩ := List.mem_iff_get?.mp hb
    rw [List.get?_map, flagViolations_get?] at hi
    cases hsb : sb.get? i with
    | none =>
      rw [hsb] at hi
      exact absurd hi (by simp)
    | some b0 =>
      rw [hsb] at hi
      simp only [Option.map_some', Option.some_inj] at hi
      subst hi
      by_cases hmem : i ∈ (run_single_pass_sync sb (get_metrics cfg.font) cfg).map Prod.fst
      · rw [if_pos hmem]
        refine ⟨le_max_right _ _, ?_, ?_⟩
        · intro hsplit
          rw [simulate_lines_nil _ _ _ hsplit]
          rfl
        · refine iff_of_true rfl ?_
          obtain ⟨b', hb', hv'⟩ := (mem_violIdx sb (get_metrics cfg.font) cfg i).mp hmem
          rw [hsb, Option.some_inj] at hb'
          subst hb'
          exact hv'
      · rw [if_neg hmem]
        refine ⟨le_max_right _ _, ?_, ?_⟩
        · intro hsplit
          rw [simulate_lines_nil _ _ _ hsplit]
          rfl
        · rw [hunf b0 (List.get?_mem hsb)]
          refine iff_of_false (by simp) ?_
          intro hv
          exact hmem ((mem_violIdx sb (get_metrics cfg.font) cfg i).mpr ⟨b0, hsb, hv⟩)

/-- **C8** (witness): the loop under an always-failing gateway on
`Built it.` exits with the bullet flagged, unadjusted, clamped to one
line — and the exit invariant holds of that concrete result. -/
theorem sim_exit_invariant_witness :
    run_simulation_loop envFail [draftShort] interConfig = .ok resFail ∧
    SimExitInvariant resFail interConfig :=
  ⟨by decide,
    sim_exit_invariant_holds envFail [draftShort] interConfig resFail (by decide)⟩

end Templar
